import Mathlib

/-!
Verification of the Transaction Graph & Entity Resolution Engine.

The development shallowly embeds the Python sources
`src/tools/wallet_graph.py` and `src/tools/xref_tool.py`.
Python floats are modelled as exact rationals (every operation used by the
code on them is addition, subtraction, comparison and max/min, and all
concrete inputs considered are exactly representable); pandas data frames
are modelled as lists of records in file order; `networkx.DiGraph` is
modelled by its documented dictionary-of-dictionaries semantics: a node
list in insertion order and one adjacency entry per ordered node pair, in
first-insertion order, `add_edge` on an existing pair overwriting the
stored attributes.
-/

/-- One row of `mock_chain/tx.csv`, the input to `_build_transaction_graph`
(columns `tx_hash, timestamp, from, to, asset, amount, fee, notes`;
the `from`/`to` columns are named `from_addr`/`to_addr` here). -/
structure TransferRecord where
  tx_hash : String
  timestamp : String
  from_addr : String
  to_addr : String
  asset : String
  amount : ℚ
  fee : ℚ
  notes : String
deriving DecidableEq

/-- The attribute dictionary `_build_transaction_graph` attaches to an edge. -/
structure EdgeData where
  asset : String
  amount : ℚ
  fee : ℚ
  tx_hash : String
  timestamp : String
  notes : String
deriving DecidableEq

/-- Model of `networkx.DiGraph`: nodes in insertion order, and a flat
adjacency list holding exactly one entry per ordered pair `(u, v)` that has
been given an edge, in first-insertion order.  The dict-of-dicts adjacency
of networkx is recovered by filtering this list on the first component. -/
structure DiGraph where
  nodes : List String
  adj : List (String × String × EdgeData)
deriving DecidableEq

def DiGraph.emptyGraph : DiGraph := ⟨[], []⟩

/-- `DiGraph.add_node` semantics: appends the node if it is not present. -/
def addNode (g : DiGraph) (n : String) : DiGraph :=
  if n ∈ g.nodes then g else ⟨g.nodes ++ [n], g.adj⟩

/-- Replace the data stored at pair `(u, v)` in place, or append a fresh
entry when the pair has no entry yet (dict update semantics). -/
def updateAdj : List (String × String × EdgeData) → String → String → EdgeData →
    List (String × String × EdgeData)
  | [], u, v, d => [(u, v, d)]
  | e :: rest, u, v, d =>
      if e.1 = u ∧ e.2.1 = v then (u, v, d) :: rest else e :: updateAdj rest u v d

/-- `DiGraph.add_edge u v **data`: ensures both endpoints are nodes, then
stores `data` at the pair `(u, v)`, overwriting any previous attributes. -/
def addEdge (g : DiGraph) (u v : String) (d : EdgeData) : DiGraph :=
  let g' := addNode (addNode g u) v
  ⟨g'.nodes, updateAdj g'.adj u v d⟩

/-- The attribute dictionary built from one CSV row in
`_build_transaction_graph`. -/
def recordEdgeData (r : TransferRecord) : EdgeData :=
  ⟨r.asset, r.amount, r.fee, r.tx_hash, r.timestamp, r.notes⟩

/-- `_build_transaction_graph`: folds `g.add_edge(row.from, row.to, **attrs)`
over the rows in file order, starting from an empty `DiGraph`.  The source
performs no validation of any field. -/
def buildTransactionGraph (records : List TransferRecord) : DiGraph :=
  records.foldl (fun g r => addEdge g r.from_addr r.to_addr (recordEdgeData r))
    DiGraph.emptyGraph

/-- `g.successors u`: targets of the adjacency entries with source `u`,
in first-insertion order. -/
def successors (g : DiGraph) (u : String) : List String :=
  (g.adj.filter (fun e => decide (e.1 = u))).map (fun e => e.2.1)

/-- `g.predecessors v`: sources of the adjacency entries with target `v`,
in first-insertion order. -/
def predecessors (g : DiGraph) (v : String) : List String :=
  (g.adj.filter (fun e => decide (e.2.1 = v))).map (fun e => e.1)

/-- `g[u][v]` as a partial lookup. -/
def getEdgeData (g : DiGraph) (u v : String) : Option EdgeData :=
  (g.adj.find? (fun e => decide (e.1 = u ∧ e.2.1 = v))).map (fun e => e.2.2)

/-- The ordered pair an adjacency entry is attached to. -/
def adjPair (e : String × String × EdgeData) : String × String := (e.1, e.2.1)

/-- The number of edges counted across all adjacency lists: the sum over the
graph's nodes of the length of the outgoing-edge list. -/
def edgeCount (g : DiGraph) : ℕ :=
  (g.nodes.map (fun u => (successors g u).length)).sum

/-- The `(from_address, to_address)` pairs of a record list, in order. -/
def pairsOf (records : List TransferRecord) : List (String × String) :=
  records.map (fun r => (r.from_addr, r.to_addr))

structure GraphWF (g : DiGraph) : Prop where
  nodupNodes : g.nodes.Nodup
  memNodes : ∀ e ∈ g.adj, e.1 ∈ g.nodes ∧ e.2.1 ∈ g.nodes
  nodupPairs : (g.adj.map adjPair).Nodup

lemma addNode_adj (g : DiGraph) (n : String) : (addNode g n).adj = g.adj := by
  unfold addNode; split <;> rfl

lemma addEdge_adj (g : DiGraph) (u v : String) (d : EdgeData) :
    (addEdge g u v d).adj = updateAdj g.adj u v d := by
  simp [addEdge, addNode_adj]

lemma addEdge_nodes (g : DiGraph) (u v : String) (d : EdgeData) :
    (addEdge g u v d).nodes = (addNode (addNode g u) v).nodes := by
  simp [addEdge]

lemma mem_addNode_nodes {g : DiGraph} {n m : String} :
    m ∈ (addNode g n).nodes ↔ m ∈ g.nodes ∨ m = n := by
  unfold addNode
  by_cases h : n ∈ g.nodes
  · rw [if_pos h]
    constructor
    · exact Or.inl
    · rintro (hm | rfl)
      · exact hm
      · exact h
  · rw [if_neg h]; simp

lemma addNode_nodes_nodup {g : DiGraph} (h : g.nodes.Nodup) (n : String) :
    (addNode g n).nodes.Nodup := by
  unfold addNode; split
  · exact h
  · simp_all [List.nodup_append]

lemma updateAdj_map_pair (l : List (String × String × EdgeData)) (u v : String) (d : EdgeData) :
    (updateAdj l u v d).map adjPair =
      if (u, v) ∈ l.map adjPair then l.map adjPair else l.map adjPair ++ [(u, v)] := by
  induction l with
  | nil => simp [updateAdj, adjPair]
  | cons e rest ih =>
      by_cases he : e.1 = u ∧ e.2.1 = v
      · have hp : adjPair e = (u, v) := by simp [adjPair, he.1, he.2]
        simp [updateAdj, he, hp, adjPair]
      · have hp : adjPair e ≠ (u, v) := by
          intro h
          apply he
          have h1 : e.1 = u := congrArg Prod.fst h
          have h2 : e.2.1 = v := congrArg Prod.snd h
          exact ⟨h1, h2⟩
        by_cases hm : (u, v) ∈ rest.map adjPair
        · simp [updateAdj, he, ih, hm, Ne.symm hp]
        · simp [updateAdj, he, ih, hm, Ne.symm hp]

lemma updateAdj_mem {l : List (String × String × EdgeData)} {u v : String} {d : EdgeData}
    {x : String × String × EdgeData} (h : x ∈ updateAdj l u v d) :
    x ∈ l ∨ x = (u, v, d) := by
  induction l with
  | nil =>
      simp [updateAdj] at h
      right; exact h
  | cons e rest ih =>
      unfold updateAdj at h
      by_cases hc : e.1 = u ∧ e.2.1 = v
      · rw [if_pos hc] at h
        rcases List.mem_cons.mp h with h | h
        · right; exact h
        · left; exact List.mem_cons_of_mem _ h
      · rw [if_neg hc] at h
        rcases List.mem_cons.mp h with h | h
        · left; exact h ▸ List.mem_cons_self _ _
        · rcases ih h with h' | h'
          · left; exact List.mem_cons_of_mem _ h'
          · right; exact h'

lemma addEdge_wf {g : DiGraph} (wf : GraphWF g) (u v : String) (d : EdgeData) :
    GraphWF (addEdge g u v d) := by
  constructor
  · rw [addEdge_nodes]
    exact addNode_nodes_nodup (addNode_nodes_nodup wf.nodupNodes u) v
  · intro e he
    rw [addEdge_adj] at he
    have hmem : e ∈ g.adj ∨ e = (u, v, d) := updateAdj_mem he
    rw [addEdge_nodes]
    rcases hmem with h | h
    · have := wf.memNodes e h
      constructor <;> rw [mem_addNode_nodes, mem_addNode_nodes] <;> tauto
    · subst h
      constructor <;> rw [mem_addNode_nodes, mem_addNode_nodes] <;> simp
  · rw [addEdge_adj, updateAdj_map_pair]
    by_cases hm : (u, v) ∈ g.adj.map adjPair
    · rw [if_pos hm]; exact wf.nodupPairs
    · rw [if_neg hm]
      refine List.Nodup.append wf.nodupPairs (List.nodup_singleton _) ?_
      intro x hx hx'
      simp only [List.mem_singleton] at hx'
      subst hx'
      exact hm hx

lemma addEdge_pair_mem {g : DiGraph} (u v : String) (d : EdgeData) (p : String × String) :
    p ∈ (addEdge g u v d).adj.map adjPair ↔ p ∈ g.adj.map adjPair ∨ p = (u, v) := by
  rw [addEdge_adj, updateAdj_map_pair]
  by_cases hm : (u, v) ∈ g.adj.map adjPair
  · rw [if_pos hm]
    constructor
    · exact Or.inl
    · rintro (h | rfl) <;> assumption
  · rw [if_neg hm]; simp

lemma buildAux_wf (records : List TransferRecord) (g : DiGraph) (wf : GraphWF g) :
    GraphWF (records.foldl (fun g r => addEdge g r.from_addr r.to_addr (recordEdgeData r)) g) := by
  induction records generalizing g with
  | nil => exact wf
  | cons r rs ih => exact ih _ (addEdge_wf wf _ _ _)

lemma emptyGraph_wf : GraphWF DiGraph.emptyGraph := by
  constructor <;> simp [DiGraph.emptyGraph, adjPair]

lemma build_wf (records : List TransferRecord) : GraphWF (buildTransactionGraph records) :=
  buildAux_wf records _ emptyGraph_wf

lemma buildAux_pair_mem (records : List TransferRecord) (g : DiGraph) (p : String × String) :
    p ∈ ((records.foldl (fun g r => addEdge g r.from_addr r.to_addr (recordEdgeData r)) g).adj.map adjPair)
      ↔ p ∈ g.adj.map adjPair ∨ p ∈ pairsOf records := by
  induction records generalizing g with
  | nil => simp [pairsOf]
  | cons r rs ih =>
      simp only [List.foldl_cons, ih, addEdge_pair_mem, pairsOf, List.map_cons, List.mem_cons]
      tauto

lemma build_pair_mem (records : List TransferRecord) (p : String × String) :
    p ∈ ((buildTransactionGraph records).adj.map adjPair) ↔ p ∈ pairsOf records := by
  rw [buildTransactionGraph, buildAux_pair_mem]
  simp [DiGraph.emptyGraph]

lemma sum_map_ite_count (l : List String) (a : String) :
    (l.map (fun x => if a = x then 1 else 0)).sum = l.count a := by
  induction l with
  | nil => simp
  | cons b t ih =>
      by_cases hb : a = b
      · subst hb; simp [List.count_cons, ih, Nat.add_comm]
      · simp [List.count_cons, ih, hb, Ne.symm hb]

lemma edgeCount_eq_adj_length (g : DiGraph) (wf : GraphWF g) :
    edgeCount g = g.adj.length := by
  unfold edgeCount successors
  have main : ∀ adj : List (String × String × EdgeData), (∀ e ∈ adj, e.1 ∈ g.nodes) →
      (g.nodes.map (fun u => (adj.filter (fun e => decide (e.1 = u))).length)).sum = adj.length := by
    intro adj
    induction adj with
    | nil => simp
    | cons e t ih =>
        intro hmem
        have step : ∀ u : String,
            ((e :: t).filter (fun x => decide (x.1 = u))).length =
              (if e.1 = u then 1 else 0) + (t.filter (fun x => decide (x.1 = u))).length := by
          intro u
          by_cases h : e.1 = u
          · simp [List.filter_cons, h]
            omega
          · simp [List.filter_cons, h]
        rw [List.map_congr_left (fun u _ => step u), List.sum_map_add, sum_map_ite_count]
        have h1 : g.nodes.count e.1 = 1 :=
          List.count_eq_one_of_mem wf.nodupNodes (hmem e (List.mem_cons_self _ _))
        rw [h1, ih (fun x hx => hmem x (List.mem_cons_of_mem _ hx))]
        simp [Nat.add_comm]
  simp only [List.length_map]
  exact main g.adj (fun e he => (wf.memNodes e he).1)

/-- C1 counterexample: two distinct transfer records over the same
`(from_address, to_address)` pair `("a", "b")` yield a graph whose
adjacency lists hold a single edge, not two — the second record
overwrites the first (`nx.DiGraph.add_edge` collapses parallel edges),
so the claimed edge count `N = 2` fails. -/
theorem C1_counterexample :
    edgeCount (buildTransactionGraph
      [⟨"t1", "ts1", "a", "b", "BTC", 5, 1, "n1"⟩,
       ⟨"t2", "ts2", "a", "b", "BTC", 7, 2, "n2"⟩]) = 1 ∧
    edgeCount (buildTransactionGraph
      [⟨"t1", "ts1", "a", "b", "BTC", 5, 1, "n1"⟩,
       ⟨"t2", "ts2", "a", "b", "BTC", 7, 2, "n2"⟩]) ≠
      [(⟨"t1", "ts1", "a", "b", "BTC", 5, 1, "n1"⟩ : TransferRecord),
       ⟨"t2", "ts2", "a", "b", "BTC", 7, 2, "n2"⟩].length := by
  constructor
  · decide
  · decide

/-- C1 (amended): the constructed TransactionGraph collapses parallel edges
between the same `(from_address, to_address)` pair (the last record for a
pair overwrites the earlier ones), so the number of edges counted across
all adjacency lists (sum of outgoing-edge-list lengths) equals the number
of distinct `(from_address, to_address)` pairs among the input records,
not the number of records. -/
theorem C1_edge_count_eq_distinct_pairs (records : List TransferRecord) :
    edgeCount (buildTransactionGraph records) = (pairsOf records).toFinset.card := by
  have wf := build_wf records
  rw [edgeCount_eq_adj_length _ wf]
  have hlen : (buildTransactionGraph records).adj.length =
      ((buildTransactionGraph records).adj.map adjPair).length := (List.length_map _ _).symm
  rw [hlen, ← List.toFinset_card_of_nodup wf.nodupPairs]
  congr 1
  ext p
  simp only [List.mem_toFinset]
  exact build_pair_mem records p

/-- C4 counterexample: a record with negative amount, negative fee and an
unparsable timestamp does not abort graph construction — the graph is built
and retains the invalid record as an edge, so no `InvalidRecord` failure
exists in the code. -/
theorem C4_counterexample :
    buildTransactionGraph [⟨"t1", "not a timestamp", "a", "b", "BTC", -5, -1, "n"⟩] =
      ⟨["a", "b"], [("a", "b", ⟨"BTC", -5, -1, "t1", "not a timestamp", "n"⟩)]⟩ := by
  decide

/-- C4 (amended): TransactionGraph construction performs no validation at
all — it never fails, and every input record (including records with
negative amount, negative fee, or an unparsable timestamp) contributes an
edge: after construction the record's `(from_address, to_address)` pair has
edge data attached. -/
theorem C4_construction_never_fails (records : List TransferRecord) (r : TransferRecord)
    (hr : r ∈ records) :
    ∃ d, getEdgeData (buildTransactionGraph records) r.from_addr r.to_addr = some d := by
  have hp : (r.from_addr, r.to_addr) ∈ ((buildTransactionGraph records).adj.map adjPair) :=
    (build_pair_mem records _).mpr (List.mem_map_of_mem _ hr)
  rcases List.mem_map.mp hp with ⟨e, he, hpe⟩
  have hsome : ((buildTransactionGraph records).adj.find?
      (fun e => decide (e.1 = r.from_addr ∧ e.2.1 = r.to_addr))).isSome := by
    rw [List.find?_isSome]
    refine ⟨e, he, ?_⟩
    have h1 : e.1 = r.from_addr := congrArg Prod.fst hpe
    have h2 : e.2.1 = r.to_addr := congrArg Prod.snd hpe
    simp [h1, h2]
  rcases Option.isSome_iff_exists.mp hsome with ⟨y, hy⟩
  exact ⟨y.2.2, by rw [getEdgeData, hy, Option.map_some']⟩

/-- C4 witness: the amended theorem applied to the concrete invalid record. -/
theorem C4_witness :
    (⟨"t1", "not a timestamp", "a", "b", "BTC", -5, -1, "n"⟩ : TransferRecord) ∈
      [(⟨"t1", "not a timestamp", "a", "b", "BTC", -5, -1, "n"⟩ : TransferRecord)] ∧
    ∃ d, getEdgeData
      (buildTransactionGraph [⟨"t1", "not a timestamp", "a", "b", "BTC", -5, -1, "n"⟩])
      (⟨"t1", "not a timestamp", "a", "b", "BTC", -5, -1, "n"⟩ : TransferRecord).from_addr
      (⟨"t1", "not a timestamp", "a", "b", "BTC", -5, -1, "n"⟩ : TransferRecord).to_addr = some d :=
  ⟨by decide, C4_construction_never_fails _ _ (by decide)⟩

/-- One row of `entities/xref_wallets.csv` (columns
`wallet, entity, type, confidence, source`). -/
structure EntityMapping where
  wallet : String
  entity : String
  type : String
  confidence : ℚ
  source : String
deriving DecidableEq

/-- `_get_confidence_level`: qualitative tier of a confidence score. -/
def getConfidenceLevel (confidence : ℚ) : String :=
  if confidence ≥ 0.9 then "very_high"
  else if confidence ≥ 0.8 then "high"
  else if confidence ≥ 0.6 then "medium"
  else if confidence ≥ 0.4 then "low"
  else "very_low"

/-- The result dictionary built by `resolve_wallet` on success. -/
structure EntityResolution where
  wallet_address : String
  entity : String
  entity_type : String
  confidence_score : ℚ
  source : String
  resolution_quality : String
deriving DecidableEq

/-- Outcome of `resolve_wallet`: either the textual no-mapping reply or the
result dictionary. -/
inductive ResolveResult where
  | noMapping : ResolveResult
  | resolved : EntityResolution → ResolveResult
deriving DecidableEq

/-- `match["confidence"].idxmax()` row selection: scanning the rows in file
order, keep the current row unless a later row has strictly greater
confidence, so the first row attaining the maximum wins. -/
def idxmaxConfidence (r : EntityMapping) (rest : List EntityMapping) : EntityMapping :=
  rest.foldl (fun best x => if best.confidence < x.confidence then x else best) r

/-- `resolve_wallet`: filters the mapping rows on the wallet address; with
no match answers no-mapping, with more than one match selects the
`idxmax`-confidence row, otherwise the single row. -/
def resolveWallet (mappings : List EntityMapping) (wallet_address : String) : ResolveResult :=
  match mappings.filter (fun row => decide (row.wallet = wallet_address)) with
  | [] => ResolveResult.noMapping
  | r :: rest =>
      let best := if 1 < (r :: rest).length then idxmaxConfidence r rest else r
      ResolveResult.resolved ⟨wallet_address, best.entity, best.type, best.confidence,
        best.source, getConfidenceLevel best.confidence⟩

lemma idxmaxConfidence_cons (r x : EntityMapping) (rest : List EntityMapping) :
    idxmaxConfidence r (x :: rest) =
      idxmaxConfidence (if r.confidence < x.confidence then x else r) rest := rfl

lemma idxmaxConfidence_isMax (rest : List EntityMapping) (r : EntityMapping) :
    ∀ x ∈ r :: rest, x.confidence ≤ (idxmaxConfidence r rest).confidence := by
  induction rest generalizing r with
  | nil =>
      intro x hx
      have hx0 : x = r := List.mem_singleton.mp hx
      subst hx0
      exact le_refl _
  | cons y t ih =>
      intro x hx
      rw [idxmaxConfidence_cons]
      rcases List.mem_cons.mp hx with hx0 | hx'
      · subst hx0
        by_cases h : x.confidence < y.confidence
        · rw [if_pos h]
          exact le_trans (le_of_lt h) (ih y y (List.mem_cons_self _ _))
        · rw [if_neg h]
          exact ih x x (List.mem_cons_self _ _)
      · rcases List.mem_cons.mp hx' with hx0 | hx''
        · subst hx0
          by_cases h : r.confidence < x.confidence
          · rw [if_pos h]
            exact ih x x (List.mem_cons_self _ _)
          · rw [if_neg h]
            exact le_trans (le_of_not_lt h) (ih r r (List.mem_cons_self _ _))
        · by_cases h : r.confidence < y.confidence
          · rw [if_pos h]
            exact ih y x (List.mem_cons_of_mem _ hx'')
          · rw [if_neg h]
            exact ih r x (List.mem_cons_of_mem _ hx'')

lemma idxmaxConfidence_split (rest : List EntityMapping) (r : EntityMapping) :
    ∃ l₁ l₂, r :: rest = l₁ ++ (idxmaxConfidence r rest) :: l₂ ∧
      ∀ x ∈ l₁, x.confidence < (idxmaxConfidence r rest).confidence := by
  induction rest generalizing r with
  | nil => exact ⟨[], [], rfl, by simp⟩
  | cons y t ih =>
      rw [idxmaxConfidence_cons]
      by_cases h : r.confidence < y.confidence
      · rw [if_pos h]
        rcases ih y with ⟨l₁, l₂, heq, hlt⟩
        refine ⟨r :: l₁, l₂, ?_, ?_⟩
        · rw [List.cons_append, ← heq]
        · intro x hx
          rcases List.mem_cons.mp hx with hx0 | hx'
          · subst hx0
            exact lt_of_lt_of_le h (idxmaxConfidence_isMax t y y (List.mem_cons_self _ _))
          · exact hlt x hx'
      · rw [if_neg h]
        rcases ih r with ⟨l₁, l₂, heq, hlt⟩
        cases l₁ with
        | nil =>
            simp only [List.nil_append] at heq
            rw [List.cons.injEq] at heq
            refine ⟨[], y :: t, ?_, by simp⟩
            rw [← heq.1, List.nil_append]
        | cons a l₁' =>
            rw [List.cons_append, List.cons.injEq] at heq
            obtain ⟨ha, hteq⟩ := heq
            subst ha
            refine ⟨r :: y :: l₁', l₂, ?_, ?_⟩
            · simp only [List.cons_append]
              rw [← hteq]
            · intro x hx
              have hr_lt : r.confidence < (idxmaxConfidence r t).confidence :=
                hlt r (List.mem_cons_self _ _)
              rcases List.mem_cons.mp hx with hx0 | hx'
              · subst hx0; exact hr_lt
              · rcases List.mem_cons.mp hx' with hx0 | hx''
                · subst hx0; exact lt_of_le_of_lt (le_of_not_lt h) hr_lt
                · exact hlt x (List.mem_cons_of_mem _ hx'')

/-- C2: for a wallet with more than one EntityMapping row, `resolve` returns
the row with the greatest confidence, ties broken by the first such row in
source-file order; in particular, with rows of confidence 0.9 and 0.95 for
the same wallet it returns the 0.95 row in either row order. -/
theorem C2_resolve_highest_confidence (mappings : List EntityMapping) (w : String)
    (h : 1 < (mappings.filter (fun row => decide (row.wallet = w))).length) :
    (∃ best l₁ l₂,
      resolveWallet mappings w = ResolveResult.resolved
        ⟨w, best.entity, best.type, best.confidence, best.source,
          getConfidenceLevel best.confidence⟩ ∧
      mappings.filter (fun row => decide (row.wallet = w)) = l₁ ++ best :: l₂ ∧
      (∀ x ∈ mappings.filter (fun row => decide (row.wallet = w)),
        x.confidence ≤ best.confidence) ∧
      (∀ x ∈ l₁, x.confidence < best.confidence)) ∧
    (∀ m1 m2 : EntityMapping, m1.wallet = w → m2.wallet = w →
      m1.confidence = 0.9 → m2.confidence = 0.95 →
      resolveWallet [m1, m2] w = ResolveResult.resolved
        ⟨w, m2.entity, m2.type, m2.confidence, m2.source,
          getConfidenceLevel m2.confidence⟩ ∧
      resolveWallet [m2, m1] w = ResolveResult.resolved
        ⟨w, m2.entity, m2.type, m2.confidence, m2.source,
          getConfidenceLevel m2.confidence⟩) := by
  constructor
  · cases hrows : mappings.filter (fun row => decide (row.wallet = w)) with
    | nil => rw [hrows] at h; simp at h
    | cons r rest =>
        rw [hrows] at h
        obtain ⟨l₁, l₂, heq, hlt⟩ := idxmaxConfidence_split rest r
        refine ⟨idxmaxConfidence r rest, l₁, l₂, ?_, ?_, ?_, hlt⟩
        · simp only [resolveWallet, hrows]
          rw [if_pos h]
        · exact heq
        · exact idxmaxConfidence_isMax rest r
  · intro m1 m2 hw1 hw2 hc1 hc2
    have hlt12 : m1.confidence < m2.confidence := by rw [hc1, hc2]; norm_num
    have hlt21 : ¬ m2.confidence < m1.confidence := by rw [hc1, hc2]; norm_num
    constructor
    · have hflt : List.filter (fun row => decide (row.wallet = w)) [m1, m2] = [m1, m2] := by
        simp [hw1, hw2]
      simp only [resolveWallet, hflt]
      simp [idxmaxConfidence, hlt12]
    · have hflt : List.filter (fun row => decide (row.wallet = w)) [m2, m1] = [m2, m1] := by
        simp [hw1, hw2]
      simp only [resolveWallet, hflt]
      simp [idxmaxConfidence, hlt21]

/-- C2 witness: the theorem applied to two concrete rows of confidence 0.9
and 0.95 for wallet `w`. -/
theorem C2_witness :
    1 < (([⟨"w", "A", "ty", 0.9, "s1"⟩, ⟨"w", "B", "ty", 0.95, "s2"⟩] :
        List EntityMapping).filter (fun row => decide (row.wallet = "w"))).length ∧
    ((∃ best l₁ l₂,
      resolveWallet [⟨"w", "A", "ty", 0.9, "s1"⟩, ⟨"w", "B", "ty", 0.95, "s2"⟩] "w" =
        ResolveResult.resolved
        ⟨"w", best.entity, best.type, best.confidence, best.source,
          getConfidenceLevel best.confidence⟩ ∧
      ([⟨"w", "A", "ty", 0.9, "s1"⟩, ⟨"w", "B", "ty", 0.95, "s2"⟩] :
        List EntityMapping).filter (fun row => decide (row.wallet = "w")) =
          l₁ ++ best :: l₂ ∧
      (∀ x ∈ ([⟨"w", "A", "ty", 0.9, "s1"⟩, ⟨"w", "B", "ty", 0.95, "s2"⟩] :
        List EntityMapping).filter (fun row => decide (row.wallet = "w")),
        x.confidence ≤ best.confidence) ∧
      (∀ x ∈ l₁, x.confidence < best.confidence)) ∧
    (∀ m1 m2 : EntityMapping, m1.wallet = "w" → m2.wallet = "w" →
      m1.confidence = 0.9 → m2.confidence = 0.95 →
      resolveWallet [m1, m2] "w" = ResolveResult.resolved
        ⟨"w", m2.entity, m2.type, m2.confidence, m2.source,
          getConfidenceLevel m2.confidence⟩ ∧
      resolveWallet [m2, m1] "w" = ResolveResult.resolved
        ⟨"w", m2.entity, m2.type, m2.confidence, m2.source,
          getConfidenceLevel m2.confidence⟩)) :=
  ⟨by simp, C2_resolve_highest_confidence _ "w" (by simp)⟩

/-- Python `str.lower`, modelled character-wise on the underlying data. -/
def strLower (s : String) : String := String.mk (s.data.map Char.toLower)

/-- Whether the character list `p` is an initial segment of `l`. -/
def startsWithChars : List Char → List Char → Bool
  | _, [] => true
  | [], _ :: _ => false
  | b :: l, a :: p => a == b && startsWithChars l p

/-- Python substring test `sub in hay`, on character lists. -/
def containsChars : List Char → List Char → Bool
  | hay, sub =>
    match hay with
    | [] => sub.isEmpty
    | _ :: t => startsWithChars hay sub || containsChars t sub

/-- Python `sub in hay` on strings. -/
def strContains (hay sub : String) : Bool := containsChars hay.data sub.data

/-- The result dictionary built by `validate_wallet_mapping` when the wallet
has at least one mapping row. -/
structure ValidationReport where
  wallet_address : String
  expected_entity : String
  actual_entity : String
  validation_status : String
  confidence : ℚ
  source : String
  quality_assessment : String
deriving DecidableEq

/-- Outcome of `validate_wallet_mapping`: the `NO_MAPPING` result dictionary
(confidence 0) or the full report. -/
inductive ValidateResult where
  | noMapping : String → String → ValidateResult
  | report : ValidationReport → ValidateResult
deriving DecidableEq

/-- `validate_wallet_mapping`: filters rows on the wallet address and takes
`match.iloc[0]`, the first matching row in file order (not the
highest-confidence row `resolve_wallet` would select), then classifies
`expected_entity` against that row's entity case-insensitively. -/
def validateWalletMapping (mappings : List EntityMapping)
    (wallet_address expected_entity : String) : ValidateResult :=
  match mappings.filter (fun row => decide (row.wallet = wallet_address)) with
  | [] => ValidateResult.noMapping wallet_address expected_entity
  | r :: _ =>
      let status :=
        if strLower r.entity = strLower expected_entity then "EXACT_MATCH"
        else if strContains (strLower r.entity) (strLower expected_entity) ||
            strContains (strLower expected_entity) (strLower r.entity) then "PARTIAL_MATCH"
        else "MISMATCH"
      ValidateResult.report ⟨wallet_address, expected_entity, r.entity, status,
        r.confidence, r.source, getConfidenceLevel r.confidence⟩

lemma find?_eq_head?_of_filter {α : Type} (p : α → Bool) (l : List α) :
    l.find? p = (l.filter p).head? := by
  induction l with
  | nil => rfl
  | cons a t ih =>
      rw [List.find?_cons, List.filter_cons]
      cases h : p a
      · simp only [Bool.false_eq_true, if_false]
        exact ih
      · simp only [if_true]
        rfl

/-- C3 counterexample: for wallet `w` with rows (Beta, 0.5, s1) then
(Acme Exchange, 0.95, s2), `resolve` returns the Acme Exchange row, yet
`validate(w, "Acme Exchange")` compares against the first row (Beta) and
reports MISMATCH with Beta's confidence and source — not the exact match
against the resolved entity that the claim requires. -/
theorem C3_counterexample :
    resolveWallet [⟨"w", "Beta", "t1", 0.5, "s1"⟩,
        ⟨"w", "Acme Exchange", "t2", 0.95, "s2"⟩] "w" =
      ResolveResult.resolved ⟨"w", "Acme Exchange", "t2", 0.95, "s2", "very_high"⟩ ∧
    validateWalletMapping [⟨"w", "Beta", "t1", 0.5, "s1"⟩,
        ⟨"w", "Acme Exchange", "t2", 0.95, "s2"⟩] "w" "Acme Exchange" =
      ValidateResult.report
        ⟨"w", "Acme Exchange", "Beta", "MISMATCH", 0.5, "s1", "low"⟩ := by
  have hflt : List.filter (fun row => decide (row.wallet = "w"))
      [(⟨"w", "Beta", "t1", 0.5, "s1"⟩ : EntityMapping),
       ⟨"w", "Acme Exchange", "t2", 0.95, "s2"⟩] =
      [⟨"w", "Beta", "t1", 0.5, "s1"⟩, ⟨"w", "Acme Exchange", "t2", 0.95, "s2"⟩] := by
    simp
  constructor
  · have hlt : (0.5 : ℚ) < 0.95 := by norm_num
    have h95 : getConfidenceLevel 0.95 = "very_high" := by norm_num [getConfidenceLevel]
    simp only [resolveWallet, hflt]
    simp [idxmaxConfidence, hlt, h95]
  · have hne : ¬ (strLower "Beta" = strLower "Acme Exchange") := by decide
    have hc1 : strContains (strLower "Beta") (strLower "Acme Exchange") = false := by decide
    have hc2 : strContains (strLower "Acme Exchange") (strLower "Beta") = false := by decide
    have hlow : getConfidenceLevel 0.5 = "low" := by norm_num [getConfidenceLevel]
    simp only [validateWalletMapping, hflt]
    simp [hne, hc1, hc2, hlow]

/-- C3 (amended): `validate(wallet, expected)` compares `expected_entity`
case-insensitively against the entity of the FIRST mapping row for the
wallet in source-file order (`match.iloc[0]`), not against the
highest-confidence row that `resolve` returns, and it reports that first
row's entity, confidence and source alongside the status; exact equality
of the lowercased strings yields EXACT_MATCH, a substring relation in
either direction yields PARTIAL_MATCH, anything else MISMATCH. -/
theorem C3_validate_uses_first_row (mappings : List EntityMapping) (w e : String)
    (r : EntityMapping)
    (hr : mappings.find? (fun row => decide (row.wallet = w)) = some r) :
    ∃ status, validateWalletMapping mappings w e = ValidateResult.report
        ⟨w, e, r.entity, status, r.confidence, r.source,
          getConfidenceLevel r.confidence⟩ ∧
      (status = "EXACT_MATCH" ↔ strLower r.entity = strLower e) ∧
      (status = "PARTIAL_MATCH" ↔ strLower r.entity ≠ strLower e ∧
        (strContains (strLower r.entity) (strLower e) ||
          strContains (strLower e) (strLower r.entity)) = true) ∧
      (status = "MISMATCH" ↔ strLower r.entity ≠ strLower e ∧
        (strContains (strLower r.entity) (strLower e) ||
          strContains (strLower e) (strLower r.entity)) = false) := by
  rw [find?_eq_head?_of_filter] at hr
  obtain ⟨t, ht⟩ : ∃ t, mappings.filter (fun row => decide (row.wallet = w)) = r :: t := by
    cases hf : mappings.filter (fun row => decide (row.wallet = w)) with
    | nil => rw [hf] at hr; simp at hr
    | cons a t =>
        rw [hf] at hr
        simp only [List.head?_cons, Option.some.injEq] at hr
        subst hr
        exact ⟨t, rfl⟩
  by_cases heq : strLower r.entity = strLower e
  · refine ⟨"EXACT_MATCH", ?_, iff_of_true rfl heq,
      iff_of_false (by decide) (fun hcon => hcon.1 heq),
      iff_of_false (by decide) (fun hcon => hcon.1 heq)⟩
    simp only [validateWalletMapping, ht]
    simp [heq]
  · by_cases hsub : (strContains (strLower r.entity) (strLower e) ||
        strContains (strLower e) (strLower r.entity)) = true
    · refine ⟨"PARTIAL_MATCH", ?_, iff_of_false (by decide) heq,
        iff_of_true rfl ⟨heq, hsub⟩,
        iff_of_false (by decide) (fun hcon => Bool.noConfusion (hsub.symm.trans hcon.2))⟩
      simp only [validateWalletMapping, ht]
      simp [heq, hsub]
    · have hsub' : (strContains (strLower r.entity) (strLower e) ||
          strContains (strLower e) (strLower r.entity)) = false := by
        exact Bool.not_eq_true _ ▸ hsub
      refine ⟨"MISMATCH", ?_, iff_of_false (by decide) heq,
        iff_of_false (by decide) (fun hcon => Bool.noConfusion (hsub'.symm.trans hcon.2)),
        iff_of_true rfl ⟨heq, hsub'⟩⟩
      simp only [validateWalletMapping, ht]
      simp [heq, hsub]

/-- C3 witness: the amended theorem applied to concrete rows where the
first row (Beta) is not the highest-confidence row. -/
theorem C3_witness :
    ([⟨"w", "Beta", "t1", 0.5, "s1"⟩, ⟨"w", "Acme Exchange", "t2", 0.95, "s2"⟩] :
        List EntityMapping).find? (fun row => decide (row.wallet = "w")) =
      some ⟨"w", "Beta", "t1", 0.5, "s1"⟩ ∧
    ∃ status, validateWalletMapping
        [⟨"w", "Beta", "t1", 0.5, "s1"⟩, ⟨"w", "Acme Exchange", "t2", 0.95, "s2"⟩]
        "w" "Acme" = ValidateResult.report
        ⟨"w", "Acme", "Beta", status, 0.5, "s1", getConfidenceLevel 0.5⟩ ∧
      (status = "EXACT_MATCH" ↔ strLower "Beta" = strLower "Acme") ∧
      (status = "PARTIAL_MATCH" ↔ strLower "Beta" ≠ strLower "Acme" ∧
        (strContains (strLower "Beta") (strLower "Acme") ||
          strContains (strLower "Acme") (strLower "Beta")) = true) ∧
      (status = "MISMATCH" ↔ strLower "Beta" ≠ strLower "Acme" ∧
        (strContains (strLower "Beta") (strLower "Acme") ||
          strContains (strLower "Acme") (strLower "Beta")) = false) :=
  ⟨by simp, C3_validate_uses_first_row _ "w" "Acme" ⟨"w", "Beta", "t1", 0.5, "s1"⟩ (by simp)⟩

/-- One row of the per-source aggregate table
`df.groupby("source")["confidence"].agg(["mean", "count", "min", "max"]).round(3)`. -/
structure SourceStats where
  source : String
  mean : ℚ
  count : ℕ
  min : ℚ
  max : ℚ
deriving DecidableEq

/-- Lexicographic comparison of character lists by code point, the order
pandas uses to sort `groupby` keys. -/
def charListLe : List Char → List Char → Bool
  | [], _ => true
  | _ :: _, [] => false
  | a :: l, b :: m =>
      if a.toNat < b.toNat then true
      else if b.toNat < a.toNat then false
      else charListLe l m

/-- numpy/pandas `round(x, 3)`: round half to even at the third decimal. -/
def round3 (q : ℚ) : ℚ :=
  let scaled := q * 1000
  let f : ℤ := ⌊scaled⌋
  let frac := scaled - (f : ℚ)
  let n : ℤ :=
    if frac < 1/2 then f
    else if 1/2 < frac then f + 1
    else if f % 2 = 0 then f else f + 1
  (n : ℚ) / 1000

lemma round3_exact (q : ℚ) (n : ℤ) (h : q * 1000 = (n : ℚ)) :
    round3 q = (n : ℚ) / 1000 := by
  simp only [round3, h, Int.floor_intCast]
  norm_num

/-- Minimum of a nonempty confidence group (0 for the empty list, which
pandas never produces for a group). -/
def groupMin : List ℚ → ℚ
  | [] => 0
  | x :: xs => xs.foldl min x

/-- Maximum of a nonempty confidence group. -/
def groupMax : List ℚ → ℚ
  | [] => 0
  | x :: xs => xs.foldl max x

/-- The distinct `source` values in ascending order — the `groupby` keys. -/
def sortedSources (ms : List EntityMapping) : List String :=
  List.insertionSort (fun a b => charListLe a.data b.data = true)
    ((ms.map (fun row => row.source)).dedup)

/-- The confidence column of one source's group, in file order. -/
def groupRows (ms : List EntityMapping) (s : String) : List ℚ :=
  (ms.filter (fun row => decide (row.source = s))).map (fun row => row.confidence)

/-- The per-source aggregate table of `get_source_analysis`. -/
def groupStats (ms : List EntityMapping) : List SourceStats :=
  (sortedSources ms).map (fun s =>
    ⟨s, round3 ((groupRows ms s).sum / ((groupRows ms s).length : ℚ)),
      (groupRows ms s).length,
      round3 (groupMin (groupRows ms s)), round3 (groupMax (groupRows ms s))⟩)

/-- The advisory strings `_generate_source_recommendations` can emit,
modelled structurally (source name and mean carried by the f-string). -/
inductive Recommendation where
  | mostReliable : String → ℚ → Recommendation
  | reviewWorst : String → ℚ → Recommendation
  | lowConfidenceCount : ℕ → Recommendation
deriving DecidableEq

/-- The source named by an advisory, if any. -/
def recommendationSource : Recommendation → Option String
  | Recommendation.mostReliable s _ => some s
  | Recommendation.reviewWorst s _ => some s
  | Recommendation.lowConfidenceCount _ => none

/-- `source_stats["mean"].idxmax()` row: first row with the greatest mean. -/
def idxmaxMean (r : SourceStats) (rest : List SourceStats) : SourceStats :=
  rest.foldl (fun best x => if best.mean < x.mean then x else best) r

/-- `source_stats["mean"].idxmin()` row: first row with the least mean. -/
def idxminMean (r : SourceStats) (rest : List SourceStats) : SourceStats :=
  rest.foldl (fun worst x => if x.mean < worst.mean then x else worst) r

/-- `_generate_source_recommendations`: names the best source; flags the
single worst source when the best mean exceeds the worst mean by more than
0.3; and emits one aggregate advisory counting the sources whose mean is
below 0.6. -/
def generateSourceRecommendations (stats : List SourceStats) : List Recommendation :=
  match stats with
  | [] => []
  | st :: rest =>
      let best := idxmaxMean st rest
      let worst := idxminMean st rest
      [Recommendation.mostReliable best.source best.mean] ++
      (if 0.3 < best.mean - worst.mean then
        [Recommendation.reviewWorst worst.source worst.mean] else []) ++
      (if 0 < ((st :: rest).filter (fun x => decide (x.mean < 0.6))).length then
        [Recommendation.lowConfidenceCount
          (((st :: rest).filter (fun x => decide (x.mean < 0.6))).length)] else [])

/-- The parts of the `get_source_analysis` result dictionary the claims
speak about. -/
structure SourceAnalysis where
  total_sources : ℕ
  confidence_by_source : List SourceStats
  source_reliability_ranking : List SourceStats
  recommendations : List Recommendation
deriving DecidableEq

/-- `get_source_analysis`: per-source stats, the ranking sorted by mean
descending, and the advisories. -/
def getSourceAnalysis (ms : List EntityMapping) : SourceAnalysis :=
  let stats := groupStats ms
  ⟨stats.length, stats,
    List.insertionSort (fun a b : SourceStats => b.mean ≤ a.mean) stats,
    generateSourceRecommendations stats⟩

lemma idxmaxMean_cons (r x : SourceStats) (rest : List SourceStats) :
    idxmaxMean r (x :: rest) = idxmaxMean (if r.mean < x.mean then x else r) rest := rfl

lemma idxminMean_cons (r x : SourceStats) (rest : List SourceStats) :
    idxminMean r (x :: rest) = idxminMean (if x.mean < r.mean then x else r) rest := rfl

lemma idxmaxMean_mem (rest : List SourceStats) (r : SourceStats) :
    idxmaxMean r rest ∈ r :: rest := by
  induction rest generalizing r with
  | nil => exact List.mem_cons_self _ _
  | cons y t ih =>
      rw [idxmaxMean_cons]
      by_cases h : r.mean < y.mean
      · rw [if_pos h]
        rcases List.mem_cons.mp (ih y) with h' | h'
        · rw [h']; exact List.mem_cons_of_mem _ (List.mem_cons_self _ _)
        · exact List.mem_cons_of_mem _ (List.mem_cons_of_mem _ h')
      · rw [if_neg h]
        rcases List.mem_cons.mp (ih r) with h' | h'
        · rw [h']; exact List.mem_cons_self _ _
        · exact List.mem_cons_of_mem _ (List.mem_cons_of_mem _ h')

lemma idxminMean_mem (rest : List SourceStats) (r : SourceStats) :
    idxminMean r rest ∈ r :: rest := by
  induction rest generalizing r with
  | nil => exact List.mem_cons_self _ _
  | cons y t ih =>
      rw [idxminMean_cons]
      by_cases h : y.mean < r.mean
      · rw [if_pos h]
        rcases List.mem_cons.mp (ih y) with h' | h'
        · rw [h']; exact List.mem_cons_of_mem _ (List.mem_cons_self _ _)
        · exact List.mem_cons_of_mem _ (List.mem_cons_of_mem _ h')
      · rw [if_neg h]
        rcases List.mem_cons.mp (ih r) with h' | h'
        · rw [h']; exact List.mem_cons_self _ _
        · exact List.mem_cons_of_mem _ (List.mem_cons_of_mem _ h')

lemma idxmaxMean_isMax (rest : List SourceStats) (r : SourceStats) :
    ∀ x ∈ r :: rest, x.mean ≤ (idxmaxMean r rest).mean := by
  induction rest generalizing r with
  | nil =>
      intro x hx
      have hx0 : x = r := List.mem_singleton.mp hx
      subst hx0
      exact le_refl _
  | cons y t ih =>
      intro x hx
      rw [idxmaxMean_cons]
      rcases List.mem_cons.mp hx with hx0 | hx'
      · subst hx0
        by_cases h : x.mean < y.mean
        · rw [if_pos h]
          exact le_trans (le_of_lt h) (ih y y (List.mem_cons_self _ _))
        · rw [if_neg h]
          exact ih x x (List.mem_cons_self _ _)
      · rcases List.mem_cons.mp hx' with hx0 | hx''
        · subst hx0
          by_cases h : r.mean < x.mean
          · rw [if_pos h]
            exact ih x x (List.mem_cons_self _ _)
          · rw [if_neg h]
            exact le_trans (le_of_not_lt h) (ih r r (List.mem_cons_self _ _))
        · by_cases h : r.mean < y.mean
          · rw [if_pos h]
            exact ih y x (List.mem_cons_of_mem _ hx'')
          · rw [if_neg h]
            exact ih r x (List.mem_cons_of_mem _ hx'')

lemma idxminMean_isMin (rest : List SourceStats) (r : SourceStats) :
    ∀ x ∈ r :: rest, (idxminMean r rest).mean ≤ x.mean := by
  induction rest generalizing r with
  | nil =>
      intro x hx
      have hx0 : x = r := List.mem_singleton.mp hx
      subst hx0
      exact le_refl _
  | cons y t ih =>
      intro x hx
      rw [idxminMean_cons]
      rcases List.mem_cons.mp hx with hx0 | hx'
      · subst hx0
        by_cases h : y.mean < x.mean
        · rw [if_pos h]
          exact le_trans (ih y y (List.mem_cons_self _ _)) (le_of_lt h)
        · rw [if_neg h]
          exact ih x x (List.mem_cons_self _ _)
      · rcases List.mem_cons.mp hx' with hx0 | hx''
        · subst hx0
          by_cases h : x.mean < r.mean
          · rw [if_pos h]
            exact ih x x (List.mem_cons_self _ _)
          · rw [if_neg h]
            exact le_trans (ih r r (List.mem_cons_self _ _)) (le_of_not_lt h)
        · by_cases h : y.mean < r.mean
          · rw [if_pos h]
            exact ih y x (List.mem_cons_of_mem _ hx'')
          · rw [if_neg h]
            exact ih r x (List.mem_cons_of_mem _ hx'')

instance : IsTotal SourceStats (fun a b : SourceStats => b.mean ≤ a.mean) :=
  ⟨fun a b => le_total b.mean a.mean⟩

instance : IsTrans SourceStats (fun a b : SourceStats => b.mean ≤ a.mean) :=
  ⟨fun _ _ _ hab hbc => le_trans hbc hab⟩

/-- C9 (amended): `get_source_analysis` groups mappings by source with
mean/min/max (and count) per source, ranks sources by mean descending, and
emits: one advisory naming the best source; one advisory naming the single
worst source only when the best mean exceeds the worst mean by more than
0.3; and one aggregate advisory carrying the number of sources with mean
below 0.6 — not an individual advisory for every qualifying source. -/
theorem C9_source_reliability (ms : List EntityMapping) (hne : groupStats ms ≠ []) :
    List.Sorted (fun a b : SourceStats => b.mean ≤ a.mean)
      (getSourceAnalysis ms).source_reliability_ranking ∧
    (getSourceAnalysis ms).source_reliability_ranking.Perm (groupStats ms) ∧
    (getSourceAnalysis ms).confidence_by_source = groupStats ms ∧
    (getSourceAnalysis ms).total_sources = (groupStats ms).length ∧
    (∀ st ∈ groupStats ms,
      st.mean = round3 ((groupRows ms st.source).sum / ((groupRows ms st.source).length : ℚ)) ∧
      st.count = (groupRows ms st.source).length ∧
      st.min = round3 (groupMin (groupRows ms st.source)) ∧
      st.max = round3 (groupMax (groupRows ms st.source))) ∧
    ∃ best worst, best ∈ groupStats ms ∧ (∀ st ∈ groupStats ms, st.mean ≤ best.mean) ∧
      worst ∈ groupStats ms ∧ (∀ st ∈ groupStats ms, worst.mean ≤ st.mean) ∧
      (getSourceAnalysis ms).recommendations =
        Recommendation.mostReliable best.source best.mean ::
        ((if 0.3 < best.mean - worst.mean then
            [Recommendation.reviewWorst worst.source worst.mean] else []) ++
          (if 0 < ((groupStats ms).filter (fun x => decide (x.mean < 0.6))).length then
            [Recommendation.lowConfidenceCount
              (((groupStats ms).filter (fun x => decide (x.mean < 0.6))).length)] else [])) := by
  refine ⟨List.sorted_insertionSort _ _, List.perm_insertionSort _ _, rfl, rfl, ?_, ?_⟩
  · intro st hst
    rcases List.mem_map.mp hst with ⟨s, _, hs⟩
    subst hs
    exact ⟨rfl, rfl, rfl, rfl⟩
  · cases hstats : groupStats ms with
    | nil => exact absurd hstats hne
    | cons st rest =>
        refine ⟨idxmaxMean st rest, idxminMean st rest, idxmaxMean_mem rest st,
          idxmaxMean_isMax rest st, idxminMean_mem rest st, idxminMean_isMin rest st, ?_⟩
        have hrec : (getSourceAnalysis ms).recommendations =
            generateSourceRecommendations (groupStats ms) := rfl
        rw [hrec, hstats]
        simp only [generateSourceRecommendations, List.singleton_append, List.cons_append,
          List.nil_append]

/-- Concrete mapping rows for the C9 counterexample: three sources with
per-source mean confidences 0.9 (a), 0.5 (b) and 0.4 (c). -/
def c9InputRows : List EntityMapping :=
  [⟨"w1", "E1", "ty", 0.9, "a"⟩, ⟨"w2", "E2", "ty", 0.5, "b"⟩, ⟨"w3", "E3", "ty", 0.4, "c"⟩]

lemma c9_round3_09 : round3 (0.9 : ℚ) = 0.9 := by
  rw [round3_exact 0.9 900 (by norm_num)]; norm_num

lemma c9_round3_05 : round3 (0.5 : ℚ) = 0.5 := by
  rw [round3_exact 0.5 500 (by norm_num)]; norm_num

lemma c9_round3_04 : round3 (0.4 : ℚ) = 0.4 := by
  rw [round3_exact 0.4 400 (by norm_num)]; norm_num

lemma c9_stats : groupStats c9InputRows =
    [⟨"a", 0.9, 1, 0.9, 0.9⟩, ⟨"b", 0.5, 1, 0.5, 0.5⟩, ⟨"c", 0.4, 1, 0.4, 0.4⟩] := by
  have hsrc : sortedSources c9InputRows = ["a", "b", "c"] := by decide
  have hga : groupRows c9InputRows "a" = [0.9] := by simp [groupRows, c9InputRows]
  have hgb : groupRows c9InputRows "b" = [0.5] := by simp [groupRows, c9InputRows]
  have hgc : groupRows c9InputRows "c" = [0.4] := by simp [groupRows, c9InputRows]
  simp only [groupStats, hsrc, List.map_cons, List.map_nil, hga, hgb, hgc]
  simp only [List.sum_cons, List.sum_nil, add_zero, List.length_cons, List.length_nil,
    Nat.zero_add, Nat.cast_one, div_one, groupMin, groupMax, List.foldl]
  simp only [c9_round3_09, c9_round3_05, c9_round3_04]

lemma c9_recommendations : (getSourceAnalysis c9InputRows).recommendations =
    [Recommendation.mostReliable "a" 0.9, Recommendation.reviewWorst "c" 0.4,
      Recommendation.lowConfidenceCount 2] := by
  have h1 : (getSourceAnalysis c9InputRows).recommendations =
      generateSourceRecommendations (groupStats c9InputRows) := rfl
  rw [h1, c9_stats]
  have hn1 : ¬ ((0.9 : ℚ) < 0.5) := by norm_num
  have hn2 : ¬ ((0.9 : ℚ) < 0.4) := by norm_num
  have hp1 : (0.5 : ℚ) < 0.9 := by norm_num
  have hp2 : (0.4 : ℚ) < 0.5 := by norm_num
  have hgap : (0.3 : ℚ) < 0.9 - 0.4 := by norm_num
  have hm1 : ¬ ((0.9 : ℚ) < 0.6) := by norm_num
  have hm2 : (0.5 : ℚ) < 0.6 := by norm_num
  have hm3 : (0.4 : ℚ) < 0.6 := by norm_num
  simp [generateSourceRecommendations, idxmaxMean, idxminMean, List.filter,
    hn1, hn2, hp1, hp2, hgap, hm1, hm2, hm3]

/-- C9 counterexample: with sources a, b, c of mean confidences 0.9, 0.5 and
0.4, source b is both more than 0.3 below the best mean and below 0.6
absolute, yet no emitted advisory names b — the code only flags the single
worst source (c) and emits one aggregate count — refuting the claim that
every such source receives an advisory flag. -/
theorem C9_counterexample :
    groupStats c9InputRows =
      [⟨"a", 0.9, 1, 0.9, 0.9⟩, ⟨"b", 0.5, 1, 0.5, 0.5⟩, ⟨"c", 0.4, 1, 0.4, 0.4⟩] ∧
    (getSourceAnalysis c9InputRows).recommendations =
      [Recommendation.mostReliable "a" 0.9, Recommendation.reviewWorst "c" 0.4,
        Recommendation.lowConfidenceCount 2] ∧
    ((0.3 : ℚ) < 0.9 - 0.5 ∧ (0.5 : ℚ) < 0.6) ∧
    (∀ rec ∈ (getSourceAnalysis c9InputRows).recommendations,
      recommendationSource rec ≠ some "b") := by
  refine ⟨c9_stats, c9_recommendations, ⟨by norm_num, by norm_num⟩, ?_⟩
  rw [c9_recommendations]
  intro rec hrec
  rcases List.mem_cons.mp hrec with h | h
  · subst h; simp [recommendationSource]
  · rcases List.mem_cons.mp h with h' | h'
    · subst h'; simp [recommendationSource]
    · rcases List.mem_cons.mp h' with h'' | h''
      · subst h''; simp [recommendationSource]
      · simp at h''

/-- C9 witness: the amended theorem applied to the concrete three-source
input. -/
theorem C9_witness :
    groupStats c9InputRows ≠ [] ∧
    (List.Sorted (fun a b : SourceStats => b.mean ≤ a.mean)
      (getSourceAnalysis c9InputRows).source_reliability_ranking ∧
    (getSourceAnalysis c9InputRows).source_reliability_ranking.Perm (groupStats c9InputRows) ∧
    (getSourceAnalysis c9InputRows).confidence_by_source = groupStats c9InputRows ∧
    (getSourceAnalysis c9InputRows).total_sources = (groupStats c9InputRows).length ∧
    (∀ st ∈ groupStats c9InputRows,
      st.mean = round3 ((groupRows c9InputRows st.source).sum /
        ((groupRows c9InputRows st.source).length : ℚ)) ∧
      st.count = (groupRows c9InputRows st.source).length ∧
      st.min = round3 (groupMin (groupRows c9InputRows st.source)) ∧
      st.max = round3 (groupMax (groupRows c9InputRows st.source))) ∧
    ∃ best worst, best ∈ groupStats c9InputRows ∧
      (∀ st ∈ groupStats c9InputRows, st.mean ≤ best.mean) ∧
      worst ∈ groupStats c9InputRows ∧
      (∀ st ∈ groupStats c9InputRows, worst.mean ≤ st.mean) ∧
      (getSourceAnalysis c9InputRows).recommendations =
        Recommendation.mostReliable best.source best.mean ::
        ((if 0.3 < best.mean - worst.mean then
            [Recommendation.reviewWorst worst.source worst.mean] else []) ++
          (if 0 < ((groupStats c9InputRows).filter
              (fun x => decide (x.mean < 0.6))).length then
            [Recommendation.lowConfidenceCount
              (((groupStats c9InputRows).filter
                (fun x => decide (x.mean < 0.6))).length)] else []))) :=
  ⟨by rw [c9_stats]; simp, C9_source_reliability c9InputRows (by rw [c9_stats]; simp)⟩

section Traversal

variable (nbrs : String → List String) (start : String)

/-- All walks of exactly `n` edges that start at `start`, written in
reverse: the head of each list is the endpoint of the walk and `start` is
its last element. -/
def rwalks : ℕ → List (List String)
  | 0 => [[start]]
  | n + 1 =>
      (rwalks n).flatMap (fun w =>
        match w with
        | [] => []
        | c :: rest => (nbrs c).map (fun x => x :: c :: rest))

/-- `t` can be reached from `start` by a walk of exactly `n` edges. -/
def reachesIn (t : String) (n : ℕ) : Prop :=
  ∃ w ∈ rwalks nbrs start n, w.head? = some t

/-- `t` is reachable from `start` (by a walk of some length). -/
def reaches (t : String) : Prop := ∃ n, reachesIn nbrs start t n

/-- Breadth-first levels: `(lvAux n).1` is the set of nodes first reached
at depth `n`, `(lvAux n).2` the set of all nodes reached at depth at most
`n`. -/
def lvAux : ℕ → Finset String × Finset String
  | 0 => ({start}, {start})
  | k + 1 =>
      let p := lvAux k
      let next := (p.1.biUnion (fun u => (nbrs u).toFinset)) \ p.2
      (next, p.2 ∪ next)

/-- Nodes whose breadth-first distance from `start` is exactly `k`. -/
def lvl (k : ℕ) : Finset String := (lvAux nbrs start k).1

/-- Nodes whose breadth-first distance from `start` is at most `k`. -/
def vis (k : ℕ) : Finset String := (lvAux nbrs start k).2

lemma lvl_zero : lvl nbrs start 0 = {start} := rfl

lemma vis_zero : vis nbrs start 0 = {start} := rfl

lemma lvl_succ (k : ℕ) : lvl nbrs start (k + 1) =
    ((lvl nbrs start k).biUnion (fun u => (nbrs u).toFinset)) \ vis nbrs start k := rfl

lemma vis_succ (k : ℕ) : vis nbrs start (k + 1) =
    vis nbrs start k ∪ lvl nbrs start (k + 1) := rfl

lemma lvl_subset_vis (k : ℕ) : lvl nbrs start k ⊆ vis nbrs start k := by
  cases k with
  | zero => exact subset_rfl
  | succ k => rw [vis_succ]; exact Finset.subset_union_right

lemma vis_mono_succ (k : ℕ) : vis nbrs start k ⊆ vis nbrs start (k + 1) := by
  rw [vis_succ]; exact Finset.subset_union_left

lemma vis_mono {j k : ℕ} (h : j ≤ k) : vis nbrs start j ⊆ vis nbrs start k := by
  induction k with
  | zero => cases Nat.le_zero.mp h; exact subset_rfl
  | succ k ih =>
      rcases Nat.le_succ_iff.mp h with h' | h'
      · exact subset_trans (ih h') (vis_mono_succ nbrs start k)
      · subst h'; exact subset_rfl

lemma lvl_succ_disjoint_vis (k : ℕ) :
    Disjoint (lvl nbrs start (k + 1)) (vis nbrs start k) := by
  rw [lvl_succ]
  exact Finset.sdiff_disjoint

lemma mem_vis_iff_exists_lvl (t : String) (k : ℕ) :
    t ∈ vis nbrs start k ↔ ∃ j ≤ k, t ∈ lvl nbrs start j := by
  induction k with
  | zero =>
      constructor
      · intro h; exact ⟨0, le_refl _, h⟩
      · rintro ⟨j, hj, ht⟩
        cases Nat.le_zero.mp hj
        exact ht
  | succ k ih =>
      rw [vis_succ, Finset.mem_union, ih]
      constructor
      · rintro (⟨j, hj, ht⟩ | ht)
        · exact ⟨j, le_trans hj (Nat.le_succ _), ht⟩
        · exact ⟨k + 1, le_refl _, ht⟩
      · rintro ⟨j, hj, ht⟩
        rcases Nat.le_succ_iff.mp hj with h' | h'
        · exact Or.inl ⟨j, h', ht⟩
        · subst h'; exact Or.inr ht

lemma lvl_mem_unique {j k : ℕ} {t : String} (hj : t ∈ lvl nbrs start j)
    (hk : t ∈ lvl nbrs start k) : j = k := by
  rcases Nat.lt_trichotomy j k with h | h | h
  · obtain ⟨k', rfl⟩ : ∃ k', k = k' + 1 := ⟨k - 1, by omega⟩
    exact absurd (vis_mono nbrs start (show j ≤ k' by omega) (lvl_subset_vis nbrs start j hj))
      (Finset.disjoint_left.mp (lvl_succ_disjoint_vis nbrs start k') hk)
  · exact h
  · obtain ⟨j', rfl⟩ : ∃ j', j = j' + 1 := ⟨j - 1, by omega⟩
    exact absurd (vis_mono nbrs start (show k ≤ j' by omega) (lvl_subset_vis nbrs start k hk))
      (fun hcon => Finset.disjoint_left.mp (lvl_succ_disjoint_vis nbrs start j') hj hcon)

lemma mem_vis_succ_of_nbr {u t : String} {j : ℕ} (hu : u ∈ lvl nbrs start j)
    (ht : t ∈ nbrs u) : t ∈ vis nbrs start (j + 1) := by
  by_cases hv : t ∈ vis nbrs start j
  · exact vis_mono_succ nbrs start j hv
  · rw [vis_succ, Finset.mem_union, lvl_succ]
    right
    rw [Finset.mem_sdiff, Finset.mem_biUnion]
    exact ⟨⟨u, hu, List.mem_toFinset.mpr ht⟩, hv⟩

lemma reachesIn_zero_iff (t : String) : reachesIn nbrs start t 0 ↔ t = start := by
  constructor
  · rintro ⟨w, hw, hhead⟩
    simp only [rwalks, List.mem_singleton] at hw
    subst hw
    simp only [List.head?_cons, Option.some.injEq] at hhead
    exact hhead.symm
  · rintro rfl
    exact ⟨[t], by simp [rwalks], rfl⟩

lemma reachesIn_succ_intro {u : String} {m : ℕ} (h : reachesIn nbrs start u m)
    {t : String} (ht : t ∈ nbrs u) : reachesIn nbrs start t (m + 1) := by
  obtain ⟨w, hw, hhead⟩ := h
  cases w with
  | nil => simp at hhead
  | cons c rest =>
      simp only [List.head?_cons, Option.some.injEq] at hhead
      subst hhead
      refine ⟨t :: c :: rest, ?_, rfl⟩
      show t :: c :: rest ∈ rwalks nbrs start (m + 1)
      simp only [rwalks, List.mem_flatMap]
      refine ⟨c :: rest, hw, ?_⟩
      simp only [List.mem_map]
      exact ⟨t, ht, rfl⟩

lemma reachesIn_succ_elim {t : String} {k : ℕ} (h : reachesIn nbrs start t (k + 1)) :
    ∃ u, reachesIn nbrs start u k ∧ t ∈ nbrs u := by
  obtain ⟨w, hw, hhead⟩ := h
  simp only [rwalks, List.mem_flatMap] at hw
  obtain ⟨w', hw', hmem⟩ := hw
  cases w' with
  | nil => simp at hmem
  | cons c rest =>
      simp only [List.mem_map] at hmem
      obtain ⟨x, hx, hxw⟩ := hmem
      subst hxw
      simp only [List.head?_cons, Option.some.injEq] at hhead
      subst hhead
      exact ⟨c, ⟨c :: rest, hw', rfl⟩, hx⟩

lemma mem_vis_iff_reachesIn (t : String) (k : ℕ) :
    t ∈ vis nbrs start k ↔ ∃ m ≤ k, reachesIn nbrs start t m := by
  induction k generalizing t with
  | zero =>
      rw [vis_zero, Finset.mem_singleton]
      constructor
      · intro h
        refine ⟨0, le_refl _, ?_⟩
        rw [reachesIn_zero_iff]
        exact h
      · rintro ⟨m, hm, hr⟩
        cases Nat.le_zero.mp hm
        exact (reachesIn_zero_iff nbrs start t).mp hr
  | succ k ih =>
      constructor
      · intro h
        rw [vis_succ, Finset.mem_union] at h
        rcases h with h | h
        · obtain ⟨m, hm, hr⟩ := (ih t).mp h
          exact ⟨m, le_trans hm (Nat.le_succ _), hr⟩
        · rw [lvl_succ, Finset.mem_sdiff, Finset.mem_biUnion] at h
          obtain ⟨⟨u, hu, htu⟩, _⟩ := h
          obtain ⟨m, hm, hr⟩ := (ih u).mp (lvl_subset_vis nbrs start k hu)
          exact ⟨m + 1, by omega,
            reachesIn_succ_intro nbrs start hr (List.mem_toFinset.mp htu)⟩
      · rintro ⟨m, hm, hr⟩
        rcases Nat.le_succ_iff.mp hm with h' | h'
        · exact vis_mono_succ nbrs start k ((ih t).mpr ⟨m, h', hr⟩)
        · subst h'
          obtain ⟨u, hru, htu⟩ := reachesIn_succ_elim nbrs start hr
          have hu : u ∈ vis nbrs start k := (ih u).mpr ⟨k, le_refl _, hru⟩
          obtain ⟨j, hj, hulvl⟩ := (mem_vis_iff_exists_lvl nbrs start u k).mp hu
          exact vis_mono nbrs start (by omega)
            (mem_vis_succ_of_nbr nbrs start hulvl htu)

lemma lvl_succ_empty_of_vis_stable {m : ℕ}
    (h : vis nbrs start m = vis nbrs start (m + 1)) :
    lvl nbrs start (m + 1) = ∅ := by
  rw [Finset.eq_empty_iff_forall_not_mem]
  intro x hx
  have hxv : x ∈ vis nbrs start m := by
    rw [h, vis_succ, Finset.mem_union]
    exact Or.inr hx
  exact Finset.disjoint_left.mp (lvl_succ_disjoint_vis nbrs start m) hx hxv

lemma vis_stable_succ {m : ℕ} (h : vis nbrs start m = vis nbrs start (m + 1)) :
    vis nbrs start (m + 1) = vis nbrs start (m + 2) := by
  have hl : lvl nbrs start (m + 1) = ∅ := lvl_succ_empty_of_vis_stable nbrs start h
  have hl2 : lvl nbrs start (m + 2) = ∅ := by
    rw [lvl_succ, hl]
    simp
  rw [show vis nbrs start (m + 2) = vis nbrs start (m + 1) ∪ lvl nbrs start (m + 2) from rfl,
    hl2]
  simp

lemma vis_stable_offset {m : ℕ} (h : vis nbrs start m = vis nbrs start (m + 1)) :
    ∀ i, vis nbrs start (m + i) = vis nbrs start m ∧
      vis nbrs start (m + i) = vis nbrs start (m + i + 1) := by
  intro i
  induction i with
  | zero => exact ⟨rfl, h⟩
  | succ i ih =>
      obtain ⟨ih1, ih2⟩ := ih
      have h3 : vis nbrs start (m + i + 1) = vis nbrs start (m + i + 2) :=
        vis_stable_succ nbrs start ih2
      exact ⟨ih2.symm.trans ih1, h3⟩

lemma vis_stable {m : ℕ} (h : vis nbrs start m = vis nbrs start (m + 1)) :
    ∀ k, m ≤ k → vis nbrs start k = vis nbrs start m := by
  intro k hk
  have := (vis_stable_offset nbrs start h (k - m)).1
  rwa [show m + (k - m) = k by omega] at this

lemma vis_card_lower {m : ℕ} (h : ∀ j < m, vis nbrs start j ≠ vis nbrs start (j + 1)) :
    m + 1 ≤ (vis nbrs start m).card := by
  induction m with
  | zero => rw [vis_zero]; simp
  | succ m ih =>
      have h1 : m + 1 ≤ (vis nbrs start m).card :=
        ih (fun j hj => h j (by omega))
      have h2 : vis nbrs start m ⊂ vis nbrs start (m + 1) :=
        (Finset.ssubset_iff_of_subset (vis_mono_succ nbrs start m)).mpr
          (by
            rcases Finset.exists_of_ssubset
              ((vis_mono_succ nbrs start m).ssubset_of_ne (h m (by omega))) with ⟨x, hx1, hx2⟩
            exact ⟨x, hx1, hx2⟩)
      have := Finset.card_lt_card h2
      omega

lemma vis_subset_nodes (nodesL : List String) (hstart : start ∈ nodesL)
    (hnb : ∀ u x, x ∈ nbrs u → x ∈ nodesL) (k : ℕ) :
    vis nbrs start k ⊆ nodesL.toFinset := by
  induction k with
  | zero =>
      rw [vis_zero]
      intro x hx
      rw [Finset.mem_singleton] at hx
      subst hx
      exact List.mem_toFinset.mpr hstart
  | succ k ih =>
      rw [vis_succ]
      intro x hx
      rw [Finset.mem_union] at hx
      rcases hx with hx | hx
      · exact ih hx
      · rw [lvl_succ, Finset.mem_sdiff, Finset.mem_biUnion] at hx
        obtain ⟨⟨u, _, hxu⟩, _⟩ := hx
        exact List.mem_toFinset.mpr (hnb u x (List.mem_toFinset.mp hxu))

lemma reaches_mem_vis_length (nodesL : List String) (hstart : start ∈ nodesL)
    (hnb : ∀ u x, x ∈ nbrs u → x ∈ nodesL) {t : String}
    (h : reaches nbrs start t) : t ∈ vis nbrs start nodesL.length := by
  obtain ⟨n, hn⟩ := h
  have hvn : t ∈ vis nbrs start n :=
    (mem_vis_iff_reachesIn nbrs start t n).mpr ⟨n, le_refl _, hn⟩
  by_cases hstab : ∃ j, j < nodesL.length ∧ vis nbrs start j = vis nbrs start (j + 1)
  · obtain ⟨j, hj, hstabj⟩ := hstab
    by_cases hn' : n ≤ nodesL.length
    · exact vis_mono nbrs start hn' hvn
    · have h1 : vis nbrs start n = vis nbrs start j :=
        vis_stable nbrs start hstabj n (by omega)
      rw [h1] at hvn
      exact vis_mono nbrs start (by omega) hvn
  · push_neg at hstab
    exfalso
    have hcard : nodesL.length + 1 ≤ (vis nbrs start nodesL.length).card :=
      vis_card_lower nbrs start (fun j hj => hstab j hj)
    have hsub : (vis nbrs start nodesL.length).card ≤ nodesL.toFinset.card :=
      Finset.card_le_card (vis_subset_nodes nbrs start nodesL hstart hnb nodesL.length)
    have hlen : nodesL.toFinset.card ≤ nodesL.length := nodesL.toFinset_card_le
    omega

lemma reaches_iff_bounded (nodesL : List String) (hstart : start ∈ nodesL)
    (hnb : ∀ u x, x ∈ nbrs u → x ∈ nodesL) (t : String) :
    reaches nbrs start t ↔ ∃ m ≤ nodesL.length, reachesIn nbrs start t m := by
  constructor
  · intro h
    exact (mem_vis_iff_reachesIn nbrs start t nodesL.length).mp
      (reaches_mem_vis_length nbrs start nodesL hstart hnb h)
  · rintro ⟨m, _, hr⟩
    exact ⟨m, hr⟩

lemma lvl_empty_propagate {j : ℕ} (h : lvl nbrs start j = ∅) :
    ∀ k, j ≤ k → lvl nbrs start k = ∅ := by
  intro k hk
  induction k with
  | zero => cases Nat.le_zero.mp hk; exact h
  | succ k ih =>
      rcases Nat.le_succ_iff.mp hk with h' | h'
      · rw [lvl_succ, ih h']
        simp
      · subst h'; exact h

lemma mem_lvl_iff_min (t : String) (k : ℕ) :
    t ∈ lvl nbrs start k ↔
      (reachesIn nbrs start t k ∧ ∀ j < k, ¬ reachesIn nbrs start t j) := by
  have hchar : t ∈ lvl nbrs start k ↔
      (∃ m ≤ k, reachesIn nbrs start t m) ∧ ∀ j < k, ¬ reachesIn nbrs start t j := by
    cases k with
    | zero =>
        rw [show lvl nbrs start 0 = vis nbrs start 0 from rfl, mem_vis_iff_reachesIn]
        simp
    | succ k =>
        constructor
        · intro h
          have hv : t ∈ vis nbrs start (k + 1) := lvl_subset_vis nbrs start (k + 1) h
          have hnv : t ∉ vis nbrs start k :=
            Finset.disjoint_left.mp (lvl_succ_disjoint_vis nbrs start k) h
          refine ⟨(mem_vis_iff_reachesIn nbrs start t (k + 1)).mp hv, ?_⟩
          intro j hj hr
          exact hnv ((mem_vis_iff_reachesIn nbrs start t k).mpr ⟨j, by omega, hr⟩)
        · rintro ⟨hex, hmin⟩
          have hv : t ∈ vis nbrs start (k + 1) :=
            (mem_vis_iff_reachesIn nbrs start t (k + 1)).mpr hex
          have hnv : t ∉ vis nbrs start k := by
            intro hcon
            obtain ⟨m, hm, hr⟩ := (mem_vis_iff_reachesIn nbrs start t k).mp hcon
            exact hmin m (by omega) hr
          rw [vis_succ, Finset.mem_union] at hv
          rcases hv with hv | hv
          · exact absurd hv hnv
          · exact hv
  rw [hchar]
  constructor
  · rintro ⟨⟨m, hm, hr⟩, hmin⟩
    rcases Nat.eq_or_lt_of_le hm with h' | h'
    · subst h'; exact ⟨hr, hmin⟩
    · exact absurd hr (hmin m h')
  · rintro ⟨hr, hmin⟩
    exact ⟨⟨k, le_refl _, hr⟩, hmin⟩

/-- State of the traversal loops in `wallet_outward_hops` /
`wallet_inward_flows`: the `visited` dict (wallet → depth first reached, in
insertion order), the FIFO `queue` of `(wallet, depth)` pairs, and the
recorded `edges_found` as `(current_wallet, neighbor, depth)` triples. -/
structure BfsState where
  visited : List (String × ℕ)
  queue : List (String × ℕ)
  edges : List (String × String × ℕ)
deriving DecidableEq

/-- Python dict assignment `visited[n] = d` for a key that may be present:
updates in place, else appends. -/
def setDepth : List (String × ℕ) → String → ℕ → List (String × ℕ)
  | [], n, d => [(n, d)]
  | (m, k) :: rest, n, d =>
      if m = n then (n, d) :: rest else (m, k) :: setDepth rest n d

lemma lookup_cons_self {a : String} {b : ℕ} {t : List (String × ℕ)} :
    List.lookup a ((a, b) :: t) = some b := by
  simp [List.lookup]

lemma lookup_cons_ne {a c : String} {b : ℕ} {t : List (String × ℕ)} (h : a ≠ c) :
    List.lookup a ((c, b) :: t) = List.lookup a t := by
  have hb : (a == c) = false := beq_eq_false_iff_ne.mpr h
  simp [List.lookup, hb]

lemma lookup_append_left {l₁ l₂ : List (String × ℕ)} {a : String} {v : ℕ}
    (h : List.lookup a l₁ = some v) :
    List.lookup a (l₁ ++ l₂) = some v := by
  induction l₁ with
  | nil => simp [List.lookup] at h
  | cons p t ih =>
      obtain ⟨c, b⟩ := p
      by_cases hac : a = c
      · subst hac
        rw [lookup_cons_self] at h
        rw [List.cons_append, lookup_cons_self]
        exact h
      · rw [lookup_cons_ne hac] at h
        rw [List.cons_append, lookup_cons_ne hac]
        exact ih h

lemma lookup_append_right {l₁ l₂ : List (String × ℕ)} {a : String}
    (h : List.lookup a l₁ = none) :
    List.lookup a (l₁ ++ l₂) = List.lookup a l₂ := by
  induction l₁ with
  | nil => simp
  | cons p t ih =>
      obtain ⟨c, b⟩ := p
      by_cases hac : a = c
      · subst hac
        rw [lookup_cons_self] at h
        exact absurd h (by simp)
      · rw [lookup_cons_ne hac] at h
        rw [List.cons_append, lookup_cons_ne hac]
        exact ih h

lemma lookup_eq_none_iff {l : List (String × ℕ)} {a : String} :
    List.lookup a l = none ↔ a ∉ l.map Prod.fst := by
  induction l with
  | nil => simp
  | cons p t ih =>
      obtain ⟨c, b⟩ := p
      by_cases hac : a = c
      · subst hac
        rw [lookup_cons_self]
        simp
      · rw [lookup_cons_ne hac]
        simp [ih, hac]

lemma lookup_isSome_of_mem_keys {l : List (String × ℕ)} {a : String}
    (h : a ∈ l.map Prod.fst) : ∃ v, List.lookup a l = some v := by
  cases hl : List.lookup a l with
  | none => exact absurd h (lookup_eq_none_iff.mp hl)
  | some v => exact ⟨v, rfl⟩

/-- One neighbor-processing step of the traversal loop: record the edge;
if the neighbor is unvisited mark and enqueue it at depth `d + 1`; if it
was visited at a depth greater than `d + 1` re-mark and re-enqueue it
(this branch is provably dead in a run from the initial state). -/
def bfsBody (w : String) (d : ℕ) (st : BfsState) (n : String) : BfsState :=
  match st.visited.lookup n with
  | none => ⟨st.visited ++ [(n, d + 1)], st.queue ++ [(n, d + 1)], st.edges ++ [(w, n, d + 1)]⟩
  | some k =>
      if d + 1 < k then
        ⟨setDepth st.visited n (d + 1), st.queue ++ [(n, d + 1)], st.edges ++ [(w, n, d + 1)]⟩
      else ⟨st.visited, st.queue, st.edges ++ [(w, n, d + 1)]⟩

/-- The `for neighbor in ...` loop of one popped wallet: fold `bfsBody`
over the neighbor list in adjacency order. -/
def bfsExpand (nbrs : String → List String) (w : String) (d : ℕ) (st : BfsState) : BfsState :=
  (nbrs w).foldl (bfsBody w d) st

/-- The `while queue:` loop: pop the front `(wallet, depth)`; skip it when
`depth >= max_depth`, else expand its neighbors.  `fuel` bounds the number
of iterations; every call made by the wrappers passes enough fuel for the
queue to empty (proved below). -/
def bfsRun (nbrs : String → List String) (maxDepth : ℕ) : ℕ → BfsState → BfsState
  | 0, st => st
  | fuel + 1, st =>
      match st.queue with
      | [] => st
      | (w, d) :: rest =>
          if maxDepth ≤ d then bfsRun nbrs maxDepth fuel ⟨st.visited, rest, st.edges⟩
          else bfsRun nbrs maxDepth fuel (bfsExpand nbrs w d ⟨st.visited, rest, st.edges⟩)

/-- The traversal fuel used by the wrappers. -/
def bfsFuel (nodesL : List String) : ℕ := 2 * nodesL.length + 2

/-- Whole BFS traversal from `start`. -/
def bfsTraverse (nbrs : String → List String) (start : String) (maxDepth : ℕ)
    (fuel : ℕ) : BfsState :=
  bfsRun nbrs maxDepth fuel ⟨[(start, 0)], [(start, 0)], []⟩


/-- The visited dict holds exactly the nodes discovered so far: every node
of level at most `d`, plus the members of `S` (the depth-`d + 1` queue
segment), each at its breadth-first level. -/
def visitedOk (d : ℕ) (S : List String) (visited : List (String × ℕ)) : Prop :=
  ∀ n k, visited.lookup n = some k ↔
    (n ∈ lvl nbrs start k ∧ (k ≤ d ∨ (k = d + 1 ∧ n ∈ S)))

lemma visitedOk_le {d : ℕ} {S : List String} {visited : List (String × ℕ)}
    (h : visitedOk nbrs start d S visited) {n : String} {k : ℕ}
    (hl : visited.lookup n = some k) : k ≤ d + 1 := by
  rcases ((h n k).mp hl).2 with h' | h'
  · omega
  · omega

lemma bfsExpandFold_inv {d : ℕ} {w : String} (hw : w ∈ lvl nbrs start d) :
    ∀ (ns : List String) (st : BfsState) (qrest q₂ : List (String × ℕ)),
    (∀ n ∈ ns, n ∈ nbrs w) →
    st.queue = qrest ++ q₂ →
    (∀ p ∈ q₂, p.2 = d + 1) →
    (∀ p ∈ q₂, p.1 ∈ lvl nbrs start (d + 1)) →
    visitedOk nbrs start d (q₂.map Prod.fst) st.visited →
    (st.visited.map Prod.fst).Nodup →
    ∃ q₂' : List (String × ℕ),
      (ns.foldl (bfsBody w d) st).queue = qrest ++ (q₂ ++ q₂') ∧
      (∀ p ∈ q₂ ++ q₂', p.2 = d + 1) ∧
      (∀ p ∈ q₂ ++ q₂', p.1 ∈ lvl nbrs start (d + 1)) ∧
      visitedOk nbrs start d ((q₂ ++ q₂').map Prod.fst) (ns.foldl (bfsBody w d) st).visited ∧
      ((ns.foldl (bfsBody w d) st).visited.map Prod.fst).Nodup ∧
      (ns.foldl (bfsBody w d) st).visited.map Prod.fst =
        st.visited.map Prod.fst ++ q₂'.map Prod.fst ∧
      (∀ n ∈ ns, ∃ k, ((ns.foldl (bfsBody w d) st).visited.lookup n) = some k) ∧
      (∀ n k, st.visited.lookup n = some k →
        ((ns.foldl (bfsBody w d) st).visited.lookup n) = some k) ∧
      (∀ x ∈ q₂'.map Prod.fst, x ∈ ns) := by
  intro ns
  induction ns with
  | nil =>
      intro st qrest q₂ _ hq hd2 hm2 hvis hnd
      exact ⟨[], by simpa using hq, by simpa using hd2, by simpa using hm2,
        by simpa using hvis, hnd, by simp, by simp, fun n k h => h, by simp⟩
  | cons n ns' ih =>
      intro st qrest q₂ hns hq hd2 hm2 hvis hnd
      rw [List.foldl_cons]
      cases hl : st.visited.lookup n with
      | some k =>
          have hk : ¬ (d + 1 < k) := by
            have := visitedOk_le nbrs start hvis hl
            omega
          have hbody : bfsBody w d st n = ⟨st.visited, st.queue, st.edges ++ [(w, n, d + 1)]⟩ := by
            simp only [bfsBody, hl, if_neg hk]
          rw [hbody]
          obtain ⟨q₂', ha, hb, hc, hd', he, hf, hg, hmono, hsub⟩ :=
            ih ⟨st.visited, st.queue, st.edges ++ [(w, n, d + 1)]⟩ qrest q₂
              (fun x hx => hns x (List.mem_cons_of_mem _ hx)) hq hd2 hm2 hvis hnd
          refine ⟨q₂', ha, hb, hc, hd', he, hf, ?_, hmono, fun x hx =>
            List.mem_cons_of_mem _ (hsub x hx)⟩
          intro m hm
          rcases List.mem_cons.mp hm with hm0 | hm'
          · subst hm0
            exact ⟨k, hmono m k hl⟩
          · exact hg m hm'
      | none =>
          have hnotmem : n ∉ st.visited.map Prod.fst := lookup_eq_none_iff.mp hl
          have hnin : n ∈ nbrs w := hns n (List.mem_cons_self _ _)
          have hnlvl : n ∈ lvl nbrs start (d + 1) := by
            rw [lvl_succ, Finset.mem_sdiff, Finset.mem_biUnion]
            refine ⟨⟨w, hw, List.mem_toFinset.mpr hnin⟩, ?_⟩
            intro hcon
            obtain ⟨j, hj, hjl⟩ := (mem_vis_iff_exists_lvl nbrs start n d).mp hcon
            have : st.visited.lookup n = some j := (hvis n j).mpr ⟨hjl, Or.inl hj⟩
            rw [hl] at this
            exact Option.noConfusion this
          have hbody : bfsBody w d st n =
              ⟨st.visited ++ [(n, d + 1)], st.queue ++ [(n, d + 1)],
                st.edges ++ [(w, n, d + 1)]⟩ := by
            simp only [bfsBody, hl]
          rw [hbody]
          -- the extended state satisfies the hypotheses with q₂ extended
          have hvis' : visitedOk nbrs start d ((q₂ ++ [(n, d + 1)]).map Prod.fst)
              (st.visited ++ [(n, d + 1)]) := by
            intro m k
            by_cases hmn : m = n
            · subst hmn
              rw [lookup_append_right hl, lookup_cons_self]
              constructor
              · intro h
                have hk : k = d + 1 := by
                  have := Option.some.inj h
                  omega
                subst hk
                exact ⟨hnlvl, Or.inr ⟨rfl, by simp⟩⟩
              · rintro ⟨hml, hor⟩
                rcases hor with hor | hor
                · exfalso
                  have : st.visited.lookup m = some k := (hvis m k).mpr ⟨hml, Or.inl hor⟩
                  rw [hl] at this
                  exact Option.noConfusion this
                · rw [hor.1]
            · have hlk : (st.visited ++ [(n, d + 1)]).lookup m = st.visited.lookup m := by
                cases hm : st.visited.lookup m with
                | some v => exact lookup_append_left hm
                | none =>
                    rw [lookup_append_right hm, lookup_cons_ne hmn]
                    simp [List.lookup]
              rw [hlk, hvis m k]
              have hS : m ∈ (q₂ ++ [(n, d + 1)]).map Prod.fst ↔ m ∈ q₂.map Prod.fst := by
                simp [hmn]
              rw [hS]
          have hnd' : ((st.visited ++ [(n, d + 1)]).map Prod.fst).Nodup := by
            rw [List.map_append]
            refine List.Nodup.append hnd (by simp) ?_
            intro x hx hx'
            simp only [List.map_cons, List.map_nil, List.mem_singleton] at hx'
            subst hx'
            exact hnotmem hx
          obtain ⟨q₂'', ha, hb, hc, hd', he, hf, hg, hmono, hsub⟩ :=
            ih ⟨st.visited ++ [(n, d + 1)], st.queue ++ [(n, d + 1)],
                st.edges ++ [(w, n, d + 1)]⟩ qrest (q₂ ++ [(n, d + 1)])
              (fun x hx => hns x (List.mem_cons_of_mem _ hx))
              (by rw [hq, List.append_assoc])
              (by
                intro p hp
                rcases List.mem_append.mp hp with hp | hp
                · exact hd2 p hp
                · simp only [List.mem_singleton] at hp
                  subst hp
                  rfl)
              (by
                intro p hp
                rcases List.mem_append.mp hp with hp | hp
                · exact hm2 p hp
                · simp only [List.mem_singleton] at hp
                  subst hp
                  exact hnlvl)
              hvis' hnd'
          simp only [List.append_assoc, List.singleton_append] at ha hb hc hd'
          refine ⟨(n, d + 1) :: q₂'', ha, hb, hc, hd', he, ?_, ?_, ?_, ?_⟩
          · rw [hf]
            simp [List.map_append]
          · intro m hm
            rcases List.mem_cons.mp hm with hm0 | hm'
            · subst hm0
              refine ⟨d + 1, hmono m (d + 1) ?_⟩
              rw [lookup_append_right hl, lookup_cons_self]
            · exact hg m hm'
          · intro m k hmk
            exact hmono m k (lookup_append_left hmk)
          · intro x hx
            simp only [List.map_cons, List.mem_cons] at hx
            rcases hx with hx0 | hx'
            · subst hx0
              exact List.mem_cons_self _ _
            · exact List.mem_cons_of_mem _ (hsub x hx')

/-- Loop invariant of the traversal: the queue splits into a depth-`d`
segment `q₁` followed by a depth-`d + 1` segment `q₂`; the visited dict
holds exactly the levels up to `d` plus the `q₂` nodes at level `d + 1`;
and every already-popped depth-`d` node has had all its neighbors
discovered. -/
structure BfsInv (maxDepth : ℕ) (st : BfsState) (d : ℕ)
    (q₁ q₂ : List (String × ℕ)) : Prop where
  queueEq : st.queue = q₁ ++ q₂
  depth₁ : ∀ p ∈ q₁, p.2 = d
  depth₂ : ∀ p ∈ q₂, p.2 = d + 1
  mem₁ : ∀ p ∈ q₁, p.1 ∈ lvl nbrs start d
  mem₂ : ∀ p ∈ q₂, p.1 ∈ lvl nbrs start (d + 1)
  dBound : d ≤ maxDepth
  q₂nil : d < maxDepth ∨ q₂ = []
  visOk : visitedOk nbrs start d (q₂.map Prod.fst) st.visited
  visNodup : (st.visited.map Prod.fst).Nodup
  expanded : d < maxDepth → ∀ m ∈ lvl nbrs start d, (∀ p ∈ q₁, p.1 ≠ m) →
    ∀ n ∈ nbrs m, ∃ k, st.visited.lookup n = some k

lemma lvl_succ_subset_queue {maxDepth : ℕ} {st : BfsState} {d : ℕ}
    {q₂ : List (String × ℕ)} (hinv : BfsInv nbrs start maxDepth st d [] q₂)
    (hd : d < maxDepth) :
    ∀ n ∈ lvl nbrs start (d + 1), n ∈ q₂.map Prod.fst := by
  intro n hn
  have hn' := hn
  rw [lvl_succ, Finset.mem_sdiff, Finset.mem_biUnion] at hn'
  obtain ⟨⟨u, hu, hnu⟩, hnv⟩ := hn'
  obtain ⟨k, hk⟩ := hinv.expanded hd u hu (by simp) n (List.mem_toFinset.mp hnu)
  have := (hinv.visOk n k).mp hk
  rcases this.2 with h' | h'
  · exact absurd (vis_mono nbrs start h' (lvl_subset_vis nbrs start k this.1)) hnv
  · exact h'.2

/-- When the whole depth-`d` segment has been processed, the state
satisfies the invariant at depth `d + 1` with the depth-`(d+1)` segment as
the new front segment. -/
lemma bfsInv_reindex {maxDepth : ℕ} {st : BfsState} {d : ℕ}
    {q₂ : List (String × ℕ)} (hinv : BfsInv nbrs start maxDepth st d [] q₂)
    (hd : d < maxDepth) :
    BfsInv nbrs start maxDepth st (d + 1) q₂ [] := by
  have hSfull : ∀ n, n ∈ q₂.map Prod.fst ↔ n ∈ lvl nbrs start (d + 1) := by
    intro n
    constructor
    · intro h
      obtain ⟨p, hp, hpn⟩ := List.mem_map.mp h
      exact hpn ▸ hinv.mem₂ p hp
    · exact lvl_succ_subset_queue nbrs start hinv hd n
  refine ⟨?_, hinv.depth₂, by simp, hinv.mem₂, by simp, by omega, Or.inr rfl, ?_, hinv.visNodup, ?_⟩
  · rw [hinv.queueEq]; simp
  · intro n k
    rw [hinv.visOk n k]
    constructor
    · rintro ⟨hl, hor⟩
      refine ⟨hl, ?_⟩
      rcases hor with h' | h'
      · exact Or.inl (by omega)
      · exact Or.inl h'.1.le
    · rintro ⟨hl, hor⟩
      refine ⟨hl, ?_⟩
      rcases hor with h' | h'
      · rcases Nat.lt_or_ge k (d + 1) with h'' | h''
        · exact Or.inl (by omega)
        · have hk : k = d + 1 := by omega
          subst hk
          exact Or.inr ⟨rfl, (hSfull n).mpr hl⟩
      · exact absurd h'.2 (by simp)
  · intro _ m hm hq n _
    exact absurd ((hSfull m).mpr hm) (by
      intro hcon
      obtain ⟨p, hp, hpm⟩ := List.mem_map.mp hcon
      exact hq p hp hpm)

/-- At an empty queue the invariant forces the visited dict to be exactly
the levels up to `max_depth`. -/
lemma bfsInv_final {maxDepth : ℕ} {st : BfsState} {d : ℕ}
    {q₁ q₂ : List (String × ℕ)} (hinv : BfsInv nbrs start maxDepth st d q₁ q₂)
    (hq : st.queue = []) :
    ∀ n k, st.visited.lookup n = some k ↔ (n ∈ lvl nbrs start k ∧ k ≤ maxDepth) := by
  have hq12 : q₁ = [] ∧ q₂ = [] := by
    have := hinv.queueEq
    rw [hq] at this
    exact List.append_eq_nil.mp this.symm
  obtain ⟨hq1, hq2⟩ := hq12
  subst hq1
  subst hq2
  have hlvlgt : ∀ k, d < k → k ≤ maxDepth → lvl nbrs start k = ∅ := by
    intro k hdk hkm
    have hd : d < maxDepth := by omega
    have hempty : lvl nbrs start (d + 1) = ∅ := by
      rw [Finset.eq_empty_iff_forall_not_mem]
      intro x hx
      have := lvl_succ_subset_queue nbrs start hinv hd x hx
      simp at this
    exact lvl_empty_propagate nbrs start hempty k (by omega)
  have hdb := hinv.dBound
  intro n k
  rw [hinv.visOk n k]
  constructor
  · rintro ⟨hl, hor⟩
    rcases hor with h' | h'
    · exact ⟨hl, by omega⟩
    · exact absurd h'.2 (by simp)
  · rintro ⟨hl, hk⟩
    refine ⟨hl, Or.inl ?_⟩
    by_contra hcon
    push_neg at hcon
    have : lvl nbrs start k = ∅ := hlvlgt k (by omega) hk
    rw [this] at hl
    exact absurd hl (by simp)

/-- Termination measure of the traversal loop: queue length plus twice the
number of graph nodes not yet visited. -/
def bfsMeasure (nodesL : List String) (st : BfsState) : ℕ :=
  st.queue.length + 2 * (nodesL.toFinset \ (st.visited.map Prod.fst).toFinset).card

lemma bfsInv_keys_sub {maxDepth : ℕ} {st : BfsState} {d : ℕ}
    {q₁ q₂ : List (String × ℕ)} (hinv : BfsInv nbrs start maxDepth st d q₁ q₂)
    (nodesL : List String) (hstart : start ∈ nodesL)
    (hnb : ∀ u x, x ∈ nbrs u → x ∈ nodesL) :
    ∀ x ∈ st.visited.map Prod.fst, x ∈ nodesL := by
  intro x hx
  obtain ⟨v, hv⟩ := lookup_isSome_of_mem_keys hx
  have h := ((hinv.visOk x v).mp hv).1
  exact List.mem_toFinset.mp
    (vis_subset_nodes nbrs start nodesL hstart hnb v (lvl_subset_vis nbrs start v h))

lemma bfsRun_correct (maxDepth : ℕ) (nodesL : List String) (hstart : start ∈ nodesL)
    (hnb : ∀ u x, x ∈ nbrs u → x ∈ nodesL) :
    ∀ (fuel : ℕ) (st : BfsState) (d : ℕ) (q₁ q₂ : List (String × ℕ)),
    BfsInv nbrs start maxDepth st d q₁ q₂ →
    bfsMeasure nodesL st ≤ fuel →
    (bfsRun nbrs maxDepth fuel st).queue = [] ∧
    (∀ n k, List.lookup n (bfsRun nbrs maxDepth fuel st).visited = some k ↔
      (n ∈ lvl nbrs start k ∧ k ≤ maxDepth)) ∧
    ((bfsRun nbrs maxDepth fuel st).visited.map Prod.fst).Nodup := by
  intro fuel
  induction fuel with
  | zero =>
      intro st d q₁ q₂ hinv hfuel
      have hq : st.queue = [] := by
        have h1 : st.queue.length = 0 := by
          unfold bfsMeasure at hfuel
          omega
        exact List.length_eq_zero.mp h1
      exact ⟨hq, bfsInv_final nbrs start hinv hq, hinv.visNodup⟩
  | succ fuel ih =>
      intro st d q₁ q₂ hinv hfuel
      cases hqe : st.queue with
      | nil =>
          have hrun : bfsRun nbrs maxDepth (fuel + 1) st = st := by
            simp only [bfsRun, hqe]
          rw [hrun]
          exact ⟨hqe, bfsInv_final nbrs start hinv hqe, hinv.visNodup⟩
      | cons p rest =>
          obtain ⟨w, dw⟩ := p
          -- normalize to a nonempty front segment
          have H : ∃ d' q₁' q₂', BfsInv nbrs start maxDepth st d' q₁' q₂' ∧ q₁' ≠ [] := by
            cases hq1 : q₁ with
            | nil =>
                have hq2ne : q₂ ≠ [] := by
                  intro hcon
                  have := hinv.queueEq
                  rw [hq1, hcon, hqe] at this
                  simp at this
                have hd : d < maxDepth := by
                  rcases hinv.q₂nil with h | h
                  · exact h
                  · exact absurd h hq2ne
                exact ⟨d + 1, q₂, [], bfsInv_reindex nbrs start (hq1 ▸ hinv) hd, hq2ne⟩
            | cons a as => exact ⟨d, q₁, q₂, hinv, by simp [hq1]⟩
          obtain ⟨d', q₁', q₂', hinv', hq1ne⟩ := H
          obtain ⟨p0, q₁'', hq1eq⟩ := List.exists_cons_of_ne_nil hq1ne
          have hqq : p0 :: (q₁'' ++ q₂') = (w, dw) :: rest := by
            have := hinv'.queueEq
            rw [hq1eq, hqe] at this
            simpa using this.symm
          have hp0 : p0 = (w, dw) := (List.cons.injEq _ _ _ _ ▸ hqq).1
          have hrest : q₁'' ++ q₂' = rest := (List.cons.injEq _ _ _ _ ▸ hqq).2
          have hdw : dw = d' := by
            have := hinv'.depth₁ p0 (hq1eq ▸ List.mem_cons_self _ _)
            rw [hp0] at this
            exact this
          have hwlvl : w ∈ lvl nbrs start d' := by
            have := hinv'.mem₁ p0 (hq1eq ▸ List.mem_cons_self _ _)
            rw [hp0] at this
            exact this
          have hUsub : ∀ x ∈ st.visited.map Prod.fst, x ∈ nodesL :=
            bfsInv_keys_sub nbrs start hinv' nodesL hstart hnb
          by_cases hskip : maxDepth ≤ dw
          · -- skip branch: depth bound reached
            have hrun : bfsRun nbrs maxDepth (fuel + 1) st =
                bfsRun nbrs maxDepth fuel ⟨st.visited, rest, st.edges⟩ := by
              simp only [bfsRun, hqe, if_pos hskip]
            have hdeq : d' = maxDepth := by
              have := hinv'.dBound
              omega
            have hq2nil : q₂' = [] := by
              rcases hinv'.q₂nil with h | h
              · omega
              · exact h
            have hinv'' : BfsInv nbrs start maxDepth ⟨st.visited, rest, st.edges⟩ d' q₁'' q₂' := by
              refine ⟨?_, ?_, hinv'.depth₂, ?_, hinv'.mem₂, hinv'.dBound, hinv'.q₂nil,
                hinv'.visOk, hinv'.visNodup, ?_⟩
              · show rest = q₁'' ++ q₂'
                exact hrest.symm
              · intro p hp
                exact hinv'.depth₁ p (hq1eq ▸ List.mem_cons_of_mem _ hp)
              · intro p hp
                exact hinv'.mem₁ p (hq1eq ▸ List.mem_cons_of_mem _ hp)
              · intro hcon
                omega
            have hmeas : bfsMeasure nodesL ⟨st.visited, rest, st.edges⟩ ≤ fuel := by
              unfold bfsMeasure at hfuel ⊢
              simp only at hfuel ⊢
              rw [hqe] at hfuel
              simp only [List.length_cons] at hfuel
              omega
            rw [hrun]
            exact ih ⟨st.visited, rest, st.edges⟩ d' q₁'' q₂' hinv'' hmeas
          · -- expand branch
            have hdlt : dw < maxDepth := by omega
            have hrun : bfsRun nbrs maxDepth (fuel + 1) st =
                bfsRun nbrs maxDepth fuel (bfsExpand nbrs w dw ⟨st.visited, rest, st.edges⟩) := by
              simp only [bfsRun, hqe, if_neg hskip]
            subst hdw
            obtain ⟨q₂'', ha, hb, hc, hd', he, hf, hg, hmono, hsub⟩ :=
              bfsExpandFold_inv nbrs start hwlvl (nbrs w) ⟨st.visited, rest, st.edges⟩
                q₁'' q₂' (fun n hn => hn) hrest.symm hinv'.depth₂ hinv'.mem₂ hinv'.visOk
                hinv'.visNodup
            have hinv'' : BfsInv nbrs start maxDepth
                (bfsExpand nbrs w dw ⟨st.visited, rest, st.edges⟩) dw q₁'' (q₂' ++ q₂'') := by
              refine ⟨ha, ?_, hb, ?_, hc, hinv'.dBound, Or.inl hdlt, hd', he, ?_⟩
              · intro p hp
                exact hinv'.depth₁ p (hq1eq ▸ List.mem_cons_of_mem _ hp)
              · intro p hp
                exact hinv'.mem₁ p (hq1eq ▸ List.mem_cons_of_mem _ hp)
              · intro _ m hm hqnot n hn
                by_cases hmw : m = w
                · subst hmw
                  exact hg n hn
                · have hnotq1 : ∀ p ∈ q₁', p.1 ≠ m := by
                    intro p hp
                    rw [hq1eq] at hp
                    rcases List.mem_cons.mp hp with hp0' | hp'
                    · rw [hp0', hp0]
                      simp only
                      intro hcon
                      exact hmw hcon.symm
                    · exact hqnot p hp'
                  obtain ⟨k, hk⟩ := hinv'.expanded hdlt m hm hnotq1 n hn
                  exact ⟨k, hmono n k hk⟩
            have hmeas : bfsMeasure nodesL
                (bfsExpand nbrs w dw ⟨st.visited, rest, st.edges⟩) ≤ fuel := by
              have hq2''sub : ∀ x ∈ q₂''.map Prod.fst, x ∈ nodesL := by
                intro x hx
                exact hnb w x (hsub x hx)
              have hfresh : ∀ x ∈ q₂''.map Prod.fst, x ∉ st.visited.map Prod.fst := by
                intro x hx hcon
                have hnd := he
                rw [hf] at hnd
                rcases (List.nodup_append.mp hnd) with ⟨_, _, hdisj⟩
                exact hdisj hcon hx
              have hndq2'' : (q₂''.map Prod.fst).Nodup := by
                have hnd := he
                rw [hf] at hnd
                exact (List.nodup_append.mp hnd).2.1
              have hCsub : (q₂''.map Prod.fst).toFinset ⊆
                  nodesL.toFinset \ (st.visited.map Prod.fst).toFinset := by
                intro x hx
                rw [List.mem_toFinset] at hx
                rw [Finset.mem_sdiff, List.mem_toFinset, List.mem_toFinset]
                exact ⟨hq2''sub x hx, hfresh x hx⟩
              have hCcard : (q₂''.map Prod.fst).toFinset.card = q₂''.length := by
                rw [List.toFinset_card_of_nodup hndq2'']
                exact List.length_map _ _
              have hCle : q₂''.length ≤
                  (nodesL.toFinset \ (st.visited.map Prod.fst).toFinset).card := by
                rw [← hCcard]
                exact Finset.card_le_card hCsub
              have hUeq : (nodesL.toFinset \
                  ((bfsExpand nbrs w dw ⟨st.visited, rest, st.edges⟩).visited.map
                    Prod.fst).toFinset).card =
                  (nodesL.toFinset \ (st.visited.map Prod.fst).toFinset).card -
                    q₂''.length := by
                rw [show ((bfsExpand nbrs w dw ⟨st.visited, rest, st.edges⟩).visited.map
                    Prod.fst) = st.visited.map Prod.fst ++ q₂''.map Prod.fst from hf]
                rw [List.toFinset_append]
                have hsplit : nodesL.toFinset \
                    ((st.visited.map Prod.fst).toFinset ∪ (q₂''.map Prod.fst).toFinset) =
                    (nodesL.toFinset \ (st.visited.map Prod.fst).toFinset) \
                      (q₂''.map Prod.fst).toFinset := by
                  ext x
                  simp only [Finset.mem_sdiff, Finset.mem_union]
                  tauto
                rw [hsplit, Finset.card_sdiff hCsub, hCcard]
              have hqlen : (bfsExpand nbrs w dw ⟨st.visited, rest, st.edges⟩).queue.length =
                  q₁''.length + q₂'.length + q₂''.length := by
                rw [show (bfsExpand nbrs w dw ⟨st.visited, rest, st.edges⟩).queue =
                  q₁'' ++ (q₂' ++ q₂'') from ha]
                simp [List.length_append]
                omega
              have hstqlen : st.queue.length = 1 + q₁''.length + q₂'.length := by
                rw [hqe]
                have : rest.length = q₁''.length + q₂'.length := by
                  rw [← hrest]
                  simp [List.length_append]
                simp [this]
                omega
              unfold bfsMeasure at hfuel ⊢
              rw [hqlen, hUeq]
              rw [hstqlen] at hfuel
              omega
            rw [hrun]
            exact ih _ dw q₁'' (q₂' ++ q₂'') hinv'' hmeas

lemma bfsInv_init (maxDepth : ℕ) :
    BfsInv nbrs start maxDepth ⟨[(start, 0)], [(start, 0)], []⟩ 0 [(start, 0)] [] := by
  refine ⟨rfl, ?_, by simp, ?_, by simp, Nat.zero_le _, Or.inr rfl, ?_, by simp, ?_⟩
  · intro p hp
    rw [List.mem_singleton] at hp
    subst hp
    rfl
  · intro p hp
    rw [List.mem_singleton] at hp
    subst hp
    rw [lvl_zero]
    exact Finset.mem_singleton_self _
  · intro n k
    constructor
    · intro h
      by_cases hns : n = start
      · subst hns
        rw [lookup_cons_self] at h
        have hk : k = 0 := (Option.some.inj h).symm
        subst hk
        rw [lvl_zero]
        exact ⟨Finset.mem_singleton_self _, Or.inl (le_refl _)⟩
      · rw [lookup_cons_ne hns] at h
        simp [List.lookup] at h
    · rintro ⟨hl, hor⟩
      have hk : k = 0 := by
        rcases hor with h' | h'
        · omega
        · exact absurd h'.2 (by simp)
      subst hk
      rw [lvl_zero, Finset.mem_singleton] at hl
      subst hl
      rw [lookup_cons_self]
  · intro _ m hm hq
    exfalso
    rw [lvl_zero, Finset.mem_singleton] at hm
    exact hq (start, 0) (List.mem_singleton_self _) (by simp [hm])

lemma bfsTraverse_correct (maxDepth : ℕ) (nodesL : List String) (hstart : start ∈ nodesL)
    (hnb : ∀ u x, x ∈ nbrs u → x ∈ nodesL) :
    (bfsTraverse nbrs start maxDepth (bfsFuel nodesL)).queue = [] ∧
    (∀ n k, List.lookup n (bfsTraverse nbrs start maxDepth (bfsFuel nodesL)).visited =
      some k ↔ (n ∈ lvl nbrs start k ∧ k ≤ maxDepth)) ∧
    ((bfsTraverse nbrs start maxDepth (bfsFuel nodesL)).visited.map Prod.fst).Nodup := by
  have hmeas : bfsMeasure nodesL ⟨[(start, 0)], [(start, 0)], []⟩ ≤ bfsFuel nodesL := by
    unfold bfsMeasure bfsFuel
    have h1 : (nodesL.toFinset \
        ((([(start, 0)] : List (String × ℕ)).map Prod.fst).toFinset)).card ≤
        nodesL.length := by
      calc (nodesL.toFinset \
          ((([(start, 0)] : List (String × ℕ)).map Prod.fst).toFinset)).card
          ≤ nodesL.toFinset.card := Finset.card_le_card (Finset.sdiff_subset)
        _ ≤ nodesL.length := nodesL.toFinset_card_le
    simp only [List.length_cons, List.length_nil]
    omega
  exact bfsRun_correct nbrs start maxDepth nodesL hstart hnb (bfsFuel nodesL)
    ⟨[(start, 0)], [(start, 0)], []⟩ 0 [(start, 0)] [] (bfsInv_init nbrs start maxDepth)
    hmeas

end Traversal

lemma successors_mem_nodes {g : DiGraph} (wf : GraphWF g) (u x : String)
    (hx : x ∈ successors g u) : x ∈ g.nodes := by
  unfold successors at hx
  obtain ⟨e, he, hex⟩ := List.mem_map.mp hx
  exact hex ▸ (wf.memNodes e (List.mem_of_mem_filter he)).2

lemma predecessors_mem_nodes {g : DiGraph} (wf : GraphWF g) (u x : String)
    (hx : x ∈ predecessors g u) : x ∈ g.nodes := by
  unfold predecessors at hx
  obtain ⟨e, he, hex⟩ := List.mem_map.mp hx
  exact hex ▸ (wf.memNodes e (List.mem_of_mem_filter he)).1

/-- The final loop state of `wallet_outward_hops` (forward BFS over
successors). -/
def outwardFinalState (records : List TransferRecord) (start_wallet : String)
    (max_depth : ℕ) : BfsState :=
  bfsTraverse (successors (buildTransactionGraph records)) start_wallet max_depth
    (bfsFuel (buildTransactionGraph records).nodes)

/-- The final loop state of `wallet_inward_flows` (backward BFS over
predecessors). -/
def inwardFinalState (records : List TransferRecord) (target_wallet : String)
    (max_depth : ℕ) : BfsState :=
  bfsTraverse (predecessors (buildTransactionGraph records)) target_wallet max_depth
    (bfsFuel (buildTransactionGraph records).nodes)

/-- The fields of the `wallet_outward_hops` result dictionary that the
claims speak about (`wallets_by_depth` / `edges_by_depth` are derived views
of the recorded edges, provided as standalone functions below). -/
structure OutwardHopsResult where
  start_wallet : String
  max_depth : ℕ
  total_edges : ℕ
  total_wallets_reached : ℕ
  all_reachable_wallets : List String
deriving DecidableEq

/-- `wallet_outward_hops`: errors when the start wallet is not a node,
else reports the totals, and `list(visited.keys())` as the flat reachable
list. -/
def walletOutwardHops (records : List TransferRecord) (start_wallet : String)
    (max_depth : ℕ) : Except String OutwardHopsResult :=
  let g := buildTransactionGraph records
  if start_wallet ∉ g.nodes then Except.error start_wallet
  else
    let final := outwardFinalState records start_wallet max_depth
    Except.ok ⟨start_wallet, max_depth, final.edges.length, final.visited.length - 1,
      final.visited.map Prod.fst⟩

/-- The `edges_by_depth` view: recorded edges of one depth, in recording
order. -/
def edgesByDepth (st : BfsState) (dep : ℕ) : List (String × String × ℕ) :=
  st.edges.filter (fun e => decide (e.2.2 = dep))

/-- The `wallets_by_depth` view: distinct targets of the recorded edges of
one depth (Python builds this with `set`, whose iteration order is
unspecified; the model uses first-occurrence order). -/
def walletsByDepth (st : BfsState) (dep : ℕ) : List String :=
  ((edgesByDepth st dep).map (fun e => e.2.1)).dedup

/-- The fields of the `wallet_inward_flows` result dictionary that the
claims speak about. -/
structure InwardFlowsResult where
  target_wallet : String
  max_depth : ℕ
  total_inbound_edges : ℕ
  total_source_wallets : ℕ
  all_source_wallets : List String
deriving DecidableEq

/-- `wallet_inward_flows`: errors when the target wallet is not a node,
else reports the totals, and the visited wallets other than the target as
the flat source list. -/
def walletInwardFlows (records : List TransferRecord) (target_wallet : String)
    (max_depth : ℕ) : Except String InwardFlowsResult :=
  let g := buildTransactionGraph records
  if target_wallet ∉ g.nodes then Except.error target_wallet
  else
    let final := inwardFinalState records target_wallet max_depth
    Except.ok ⟨target_wallet, max_depth, final.edges.length, final.visited.length - 1,
      (final.visited.map Prod.fst).filter (fun x => decide (x ≠ target_wallet))⟩

lemma outward_visited_char (records : List TransferRecord) (start_wallet : String)
    (max_depth : ℕ) (hstart : start_wallet ∈ (buildTransactionGraph records).nodes) :
    (∀ n k, List.lookup n (outwardFinalState records start_wallet max_depth).visited =
      some k ↔ (n ∈ lvl (successors (buildTransactionGraph records)) start_wallet k ∧
        k ≤ max_depth)) ∧
    ((outwardFinalState records start_wallet max_depth).visited.map Prod.fst).Nodup := by
  have h := bfsTraverse_correct (successors (buildTransactionGraph records)) start_wallet
    max_depth (buildTransactionGraph records).nodes hstart
    (fun u x hx => successors_mem_nodes (build_wf records) u x hx)
  exact ⟨h.2.1, h.2.2⟩

lemma inward_visited_char (records : List TransferRecord) (target_wallet : String)
    (max_depth : ℕ) (htgt : target_wallet ∈ (buildTransactionGraph records).nodes) :
    (∀ n k, List.lookup n (inwardFinalState records target_wallet max_depth).visited =
      some k ↔ (n ∈ lvl (predecessors (buildTransactionGraph records)) target_wallet k ∧
        k ≤ max_depth)) ∧
    ((inwardFinalState records target_wallet max_depth).visited.map Prod.fst).Nodup := by
  have h := bfsTraverse_correct (predecessors (buildTransactionGraph records)) target_wallet
    max_depth (buildTransactionGraph records).nodes htgt
    (fun u x hx => predecessors_mem_nodes (build_wf records) u x hx)
  exact ⟨h.2.1, h.2.2⟩

lemma visited_keys_char (st : BfsState) (nbrs : String → List String) (start : String)
    (maxDepth : ℕ)
    (hchar : ∀ n k, List.lookup n st.visited = some k ↔
      (n ∈ lvl nbrs start k ∧ k ≤ maxDepth)) :
    ∀ n, n ∈ st.visited.map Prod.fst ↔ ∃ m ≤ maxDepth, reachesIn nbrs start n m := by
  intro n
  constructor
  · intro h
    obtain ⟨v, hv⟩ := lookup_isSome_of_mem_keys h
    have := (hchar n v).mp hv
    exact (mem_vis_iff_reachesIn nbrs start n maxDepth).mp
      (vis_mono nbrs start this.2 (lvl_subset_vis nbrs start v this.1))
  · intro h
    have hv : n ∈ vis nbrs start maxDepth :=
      (mem_vis_iff_reachesIn nbrs start n maxDepth).mpr h
    obtain ⟨j, hj, hl⟩ := (mem_vis_iff_exists_lvl nbrs start n maxDepth).mp hv
    have hsome : List.lookup n st.visited = some j := (hchar n j).mpr ⟨hl, hj⟩
    by_contra hcon
    rw [lookup_eq_none_iff.mpr hcon] at hsome
    exact Option.noConfusion hsome

lemma length_filter_ne {l : List String} {a : String} (hnd : l.Nodup) (ha : a ∈ l) :
    (l.filter (fun x => decide (x ≠ a))).length + 1 = l.length := by
  induction l with
  | nil => simp at ha
  | cons b t ih =>
      by_cases hba : b = a
      · have hfilter : (b :: t).filter (fun x => decide (x ≠ a)) =
            t.filter (fun x => decide (x ≠ a)) := by
          rw [List.filter_cons]
          simp [hba]
        have hnota : a ∉ t := by
          intro hcon
          exact (List.nodup_cons.mp hnd).1 (hba ▸ hcon)
        have hall : t.filter (fun x => decide (x ≠ a)) = t := by
          apply List.filter_eq_self.mpr
          intro x hx
          simp only [decide_eq_true_eq]
          intro hcon
          exact hnota (hcon ▸ hx)
        rw [hfilter, hall]
        simp
      · have hfilter : (b :: t).filter (fun x => decide (x ≠ a)) =
            b :: t.filter (fun x => decide (x ≠ a)) := by
          rw [List.filter_cons]
          simp [hba]
        have hat : a ∈ t := by
          rcases List.mem_cons.mp ha with h0 | h0
          · exact absurd h0.symm hba
          · exact h0
        have := ih (List.nodup_cons.mp hnd).2 hat
        rw [hfilter]
        simp only [List.length_cons]
        omega

/-- C7: in both `wallet_outward_hops` and `wallet_inward_flows`, the final
`visited` dict (whose key list is the reported flat reachable set) assigns
every discovered wallet the depth at which it was first reached: the entry
is `(n, k)` exactly when the shortest walk from the start to `n` (forward
for outward, backward along edges for inward) has exactly `k` hops, no
shorter walk exists, and `k` is within the depth bound — so a wallet
reachable at several depths keeps only the minimum and is never re-expanded
at a deeper depth. -/
theorem C7_min_depth_assignment (records : List TransferRecord) (start_wallet : String)
    (max_depth : ℕ) (hstart : start_wallet ∈ (buildTransactionGraph records).nodes) :
    (∀ n k,
      List.lookup n (outwardFinalState records start_wallet max_depth).visited = some k ↔
      (reachesIn (successors (buildTransactionGraph records)) start_wallet n k ∧
        (∀ j < k, ¬ reachesIn (successors (buildTransactionGraph records)) start_wallet n j) ∧
        k ≤ max_depth)) ∧
    (∀ n k,
      List.lookup n (inwardFinalState records start_wallet max_depth).visited = some k ↔
      (reachesIn (predecessors (buildTransactionGraph records)) start_wallet n k ∧
        (∀ j < k, ¬ reachesIn (predecessors (buildTransactionGraph records)) start_wallet n j) ∧
        k ≤ max_depth)) := by
  constructor
  · intro n k
    rw [(outward_visited_char records start_wallet max_depth hstart).1 n k,
      mem_lvl_iff_min]
    tauto
  · intro n k
    rw [(inward_visited_char records start_wallet max_depth hstart).1 n k,
      mem_lvl_iff_min]
    tauto

/-- C7 witness: the theorem applied to the concrete graph A→B, B→C, A→C
from wallet A with bound 2 (wallet C is reachable at depths 1 and 2). -/
theorem C7_witness :
    ("A" : String) ∈ (buildTransactionGraph
      [⟨"t1", "ts", "A", "B", "BTC", 5, 1, "n"⟩,
       ⟨"t2", "ts", "B", "C", "BTC", 5, 1, "n"⟩,
       ⟨"t3", "ts", "A", "C", "BTC", 5, 1, "n"⟩]).nodes ∧
    ((∀ n k,
      List.lookup n (outwardFinalState
        [⟨"t1", "ts", "A", "B", "BTC", 5, 1, "n"⟩,
         ⟨"t2", "ts", "B", "C", "BTC", 5, 1, "n"⟩,
         ⟨"t3", "ts", "A", "C", "BTC", 5, 1, "n"⟩] "A" 2).visited = some k ↔
      (reachesIn (successors (buildTransactionGraph
        [⟨"t1", "ts", "A", "B", "BTC", 5, 1, "n"⟩,
         ⟨"t2", "ts", "B", "C", "BTC", 5, 1, "n"⟩,
         ⟨"t3", "ts", "A", "C", "BTC", 5, 1, "n"⟩])) "A" n k ∧
        (∀ j < k, ¬ reachesIn (successors (buildTransactionGraph
          [⟨"t1", "ts", "A", "B", "BTC", 5, 1, "n"⟩,
           ⟨"t2", "ts", "B", "C", "BTC", 5, 1, "n"⟩,
           ⟨"t3", "ts", "A", "C", "BTC", 5, 1, "n"⟩])) "A" n j) ∧
        k ≤ 2)) ∧
    (∀ n k,
      List.lookup n (inwardFinalState
        [⟨"t1", "ts", "A", "B", "BTC", 5, 1, "n"⟩,
         ⟨"t2", "ts", "B", "C", "BTC", 5, 1, "n"⟩,
         ⟨"t3", "ts", "A", "C", "BTC", 5, 1, "n"⟩] "A" 2).visited = some k ↔
      (reachesIn (predecessors (buildTransactionGraph
        [⟨"t1", "ts", "A", "B", "BTC", 5, 1, "n"⟩,
         ⟨"t2", "ts", "B", "C", "BTC", 5, 1, "n"⟩,
         ⟨"t3", "ts", "A", "C", "BTC", 5, 1, "n"⟩])) "A" n k ∧
        (∀ j < k, ¬ reachesIn (predecessors (buildTransactionGraph
          [⟨"t1", "ts", "A", "B", "BTC", 5, 1, "n"⟩,
           ⟨"t2", "ts", "B", "C", "BTC", 5, 1, "n"⟩,
           ⟨"t3", "ts", "A", "C", "BTC", 5, 1, "n"⟩])) "A" n j) ∧
        k ≤ 2))) :=
  ⟨by decide, C7_min_depth_assignment _ "A" 2 (by decide)⟩

/-- C8: for a wallet present in the graph, the flat reachable-wallet list
of `trace_outward(w, k)` is a subset of that of `trace_outward(w, k+1)`. -/
theorem C8_outward_monotone (records : List TransferRecord) (start_wallet : String)
    (k : ℕ) (res res' : OutwardHopsResult)
    (h1 : walletOutwardHops records start_wallet k = Except.ok res)
    (h2 : walletOutwardHops records start_wallet (k + 1) = Except.ok res') :
    res.all_reachable_wallets ⊆ res'.all_reachable_wallets := by
  by_cases hstart : start_wallet ∈ (buildTransactionGraph records).nodes
  · have hres : res = ⟨start_wallet, k,
        (outwardFinalState records start_wallet k).edges.length,
        (outwardFinalState records start_wallet k).visited.length - 1,
        (outwardFinalState records start_wallet k).visited.map Prod.fst⟩ := by
      have := h1
      simp only [walletOutwardHops, if_neg (not_not_intro hstart), Except.ok.injEq] at this
      exact this.symm
    have hres' : res' = ⟨start_wallet, k + 1,
        (outwardFinalState records start_wallet (k + 1)).edges.length,
        (outwardFinalState records start_wallet (k + 1)).visited.length - 1,
        (outwardFinalState records start_wallet (k + 1)).visited.map Prod.fst⟩ := by
      have := h2
      simp only [walletOutwardHops, if_neg (not_not_intro hstart), Except.ok.injEq] at this
      exact this.symm
    subst hres
    subst hres'
    intro x hx
    simp only at hx ⊢
    rw [visited_keys_char _ _ _ k
      ((outward_visited_char records start_wallet k hstart).1)] at hx
    rw [visited_keys_char _ _ _ (k + 1)
      ((outward_visited_char records start_wallet (k + 1) hstart).1)]
    obtain ⟨m, hm, hr⟩ := hx
    exact ⟨m, by omega, hr⟩
  · exfalso
    simp only [walletOutwardHops, if_pos hstart] at h1
    exact Except.noConfusion h1

instance {ε α : Type} [DecidableEq ε] [DecidableEq α] : DecidableEq (Except ε α) :=
  fun a b =>
    match a, b with
    | Except.ok x, Except.ok y => decidable_of_iff (x = y) (by simp)
    | Except.error x, Except.error y => decidable_of_iff (x = y) (by simp)
    | Except.ok _, Except.error _ => isFalse (fun hc => Except.noConfusion hc)
    | Except.error _, Except.ok _ => isFalse (fun hc => Except.noConfusion hc)

/-- C8 witness: the theorem applied to the concrete graph A→B, B→C from
wallet A with bounds 1 and 2. -/
theorem C8_witness :
    walletOutwardHops
      [⟨"t1", "ts", "A", "B", "BTC", 5, 1, "n"⟩,
       ⟨"t2", "ts", "B", "C", "BTC", 5, 1, "n"⟩] "A" 1 =
      Except.ok ⟨"A", 1, 1, 1, ["A", "B"]⟩ ∧
    walletOutwardHops
      [⟨"t1", "ts", "A", "B", "BTC", 5, 1, "n"⟩,
       ⟨"t2", "ts", "B", "C", "BTC", 5, 1, "n"⟩] "A" 2 =
      Except.ok ⟨"A", 2, 2, 2, ["A", "B", "C"]⟩ ∧
    (⟨"A", 1, 1, 1, ["A", "B"]⟩ : OutwardHopsResult).all_reachable_wallets ⊆
      (⟨"A", 2, 2, 2, ["A", "B", "C"]⟩ : OutwardHopsResult).all_reachable_wallets :=
  ⟨by decide, by decide,
    C8_outward_monotone
      [⟨"t1", "ts", "A", "B", "BTC", 5, 1, "n"⟩,
       ⟨"t2", "ts", "B", "C", "BTC", 5, 1, "n"⟩] "A" 1
      ⟨"A", 1, 1, 1, ["A", "B"]⟩ ⟨"A", 2, 2, 2, ["A", "B", "C"]⟩
      (by decide) (by decide)⟩

/-- C10: on success, `trace_outward` reports `list(visited.keys())`, which
always contains the start wallet, while `trace_inward` reports the visited
wallets other than the target, which never contains it; in both directions
the numeric count is one less than the number of visited wallets, i.e. the
number of wallets other than the start (the lists are duplicate-free). -/
theorem C10_start_wallet_in_counts (records : List TransferRecord) (w : String)
    (max_depth : ℕ) (res : OutwardHopsResult) (res' : InwardFlowsResult)
    (h1 : walletOutwardHops records w max_depth = Except.ok res)
    (h2 : walletInwardFlows records w max_depth = Except.ok res') :
    w ∈ res.all_reachable_wallets ∧
    res.total_wallets_reached + 1 = res.all_reachable_wallets.length ∧
    res.all_reachable_wallets.Nodup ∧
    w ∉ res'.all_source_wallets ∧
    res'.total_source_wallets = res'.all_source_wallets.length ∧
    res'.all_source_wallets.Nodup := by
  by_cases hstart : w ∈ (buildTransactionGraph records).nodes
  · have hres : res = ⟨w, max_depth,
        (outwardFinalState records w max_depth).edges.length,
        (outwardFinalState records w max_depth).visited.length - 1,
        (outwardFinalState records w max_depth).visited.map Prod.fst⟩ := by
      have := h1
      simp only [walletOutwardHops, if_neg (not_not_intro hstart), Except.ok.injEq] at this
      exact this.symm
    have hres' : res' = ⟨w, max_depth,
        (inwardFinalState records w max_depth).edges.length,
        (inwardFinalState records w max_depth).visited.length - 1,
        ((inwardFinalState records w max_depth).visited.map Prod.fst).filter
          (fun x => decide (x ≠ w))⟩ := by
      have := h2
      simp only [walletInwardFlows, if_neg (not_not_intro hstart), Except.ok.injEq] at this
      exact this.symm
    subst hres
    subst hres'
    obtain ⟨hcharOut, hndOut⟩ := outward_visited_char records w max_depth hstart
    obtain ⟨hcharIn, hndIn⟩ := inward_visited_char records w max_depth hstart
    have hmemOut : w ∈ (outwardFinalState records w max_depth).visited.map Prod.fst := by
      have hsome : List.lookup w (outwardFinalState records w max_depth).visited =
          some 0 := by
        rw [hcharOut w 0]
        exact ⟨by rw [lvl_zero]; exact Finset.mem_singleton_self _, Nat.zero_le _⟩
      by_contra hcon
      rw [lookup_eq_none_iff.mpr hcon] at hsome
      exact Option.noConfusion hsome
    have hmemIn : w ∈ (inwardFinalState records w max_depth).visited.map Prod.fst := by
      have hsome : List.lookup w (inwardFinalState records w max_depth).visited =
          some 0 := by
        rw [hcharIn w 0]
        exact ⟨by rw [lvl_zero]; exact Finset.mem_singleton_self _, Nat.zero_le _⟩
      by_contra hcon
      rw [lookup_eq_none_iff.mpr hcon] at hsome
      exact Option.noConfusion hsome
    have hlenOut : 1 ≤ (outwardFinalState records w max_depth).visited.length := by
      have := List.length_pos.mpr (List.ne_nil_of_mem hmemOut)
      rw [List.length_map] at this
      omega
    have hlenIn : 1 ≤ (inwardFinalState records w max_depth).visited.length := by
      have := List.length_pos.mpr (List.ne_nil_of_mem hmemIn)
      rw [List.length_map] at this
      omega
    refine ⟨hmemOut, ?_, hndOut, ?_, ?_, ?_⟩
    · simp only [List.length_map]
      omega
    · intro hcon
      have := List.of_mem_filter hcon
      simp at this
    · have := length_filter_ne hndIn hmemIn
      simp only [List.length_map] at this ⊢
      omega
    · exact List.Nodup.filter _ hndIn
  · exfalso
    simp only [walletOutwardHops, if_pos hstart] at h1
    exact Except.noConfusion h1

/-- C10 witness: the theorem applied to the concrete graph A→B, B→A from
wallet A with bound 2. -/
theorem C10_witness :
    walletOutwardHops
      [⟨"t1", "ts", "A", "B", "BTC", 5, 1, "n"⟩,
       ⟨"t2", "ts", "B", "A", "BTC", 5, 1, "n"⟩] "A" 2 =
      Except.ok ⟨"A", 2, 2, 1, ["A", "B"]⟩ ∧
    walletInwardFlows
      [⟨"t1", "ts", "A", "B", "BTC", 5, 1, "n"⟩,
       ⟨"t2", "ts", "B", "A", "BTC", 5, 1, "n"⟩] "A" 2 =
      Except.ok ⟨"A", 2, 2, 1, ["B"]⟩ ∧
    (("A" : String) ∈ (["A", "B"] : List String) ∧
      1 + 1 = (["A", "B"] : List String).length ∧
      (["A", "B"] : List String).Nodup ∧
      ("A" : String) ∉ (["B"] : List String) ∧
      1 = (["B"] : List String).length ∧
      (["B"] : List String).Nodup) := by
  refine ⟨by decide, by decide, ?_⟩
  have h := C10_start_wallet_in_counts
    [⟨"t1", "ts", "A", "B", "BTC", 5, 1, "n"⟩,
     ⟨"t2", "ts", "B", "A", "BTC", 5, 1, "n"⟩] "A" 2
    ⟨"A", 2, 2, 1, ["A", "B"]⟩ ⟨"A", 2, 2, 1, ["B"]⟩ (by decide) (by decide)
  exact h

/-- Model of `nx.shortest_path(g, s, t)` for the unweighted digraph: search
walks of increasing length (0 up to the node count, which bounds every
shortest path) and return the first one ending at `t`, in forward node
order; `none` models the `NetworkXNoPath` exception. -/
def shortestPath (g : DiGraph) (s t : String) : Option (List String) :=
  (List.range (g.nodes.length + 1)).findSome? (fun n =>
    ((rwalks (successors g) s n).find? (fun w => decide (w.head? = some t))).map
      List.reverse)

/-- One entry of the `path_details` list built by `wallet_shortest_path`. -/
structure HopDetail where
  hop : ℕ
  from_addr : String
  to_addr : String
  asset : String
  amount : ℚ
  fee : ℚ
  tx_hash : String
  timestamp : String
  notes : String
deriving DecidableEq

/-- The result dictionary of `wallet_shortest_path` on success. -/
structure PathResult where
  source : String
  target : String
  path_length : ℕ
  path_nodes : List String
  total_hops : ℕ
  total_fees : ℚ
  final_amount : ℚ
  path_details : List HopDetail
deriving DecidableEq

/-- Outcome of `wallet_shortest_path`: the two not-found message strings,
the no-path message, or the result dictionary. -/
inductive ShortestPathOutcome where
  | sourceNotFound : String → ShortestPathOutcome
  | targetNotFound : String → ShortestPathOutcome
  | noPath : String → String → ShortestPathOutcome
  | found : PathResult → ShortestPathOutcome
deriving DecidableEq

/-- Placeholder edge data for the (never occurring) case of a path hop with
no stored edge; in Python `g[u][v]` on a valid path always succeeds. -/
def defaultEdgeData : EdgeData := ⟨"", 0, 0, "", "", ""⟩

/-- The `path_details` loop: for each consecutive node pair of the path,
read `g[u][v]` and build the hop dictionary (hop numbers start at 1). -/
def hopDetails (g : DiGraph) (path : List String) : List HopDetail :=
  (path.zip path.tail).enum.map (fun pe =>
    ⟨pe.1 + 1, pe.2.1, pe.2.2,
      ((getEdgeData g pe.2.1 pe.2.2).getD defaultEdgeData).asset,
      ((getEdgeData g pe.2.1 pe.2.2).getD defaultEdgeData).amount,
      ((getEdgeData g pe.2.1 pe.2.2).getD defaultEdgeData).fee,
      ((getEdgeData g pe.2.1 pe.2.2).getD defaultEdgeData).tx_hash,
      ((getEdgeData g pe.2.1 pe.2.2).getD defaultEdgeData).timestamp,
      ((getEdgeData g pe.2.1 pe.2.2).getD defaultEdgeData).notes⟩)

/-- `wallet_shortest_path`: the two membership guards, the shortest-path
query, and the per-hop accumulation `total_amount = edge amount` (overwrite)
and `total_fees += edge fee`. -/
def walletShortestPath (records : List TransferRecord) (source target : String) :
    ShortestPathOutcome :=
  let g := buildTransactionGraph records
  if source ∉ g.nodes then ShortestPathOutcome.sourceNotFound source
  else if target ∉ g.nodes then ShortestPathOutcome.targetNotFound target
  else
    match shortestPath g source target with
    | none => ShortestPathOutcome.noPath source target
    | some path =>
        let details := hopDetails g path
        let totals := details.foldl (fun acc h => (h.amount, acc.2 + h.fee)) ((0 : ℚ), (0 : ℚ))
        ShortestPathOutcome.found ⟨source, target, path.length, path, details.length,
          totals.2, totals.1, details⟩

lemma totals_foldl_snd (details : List HopDetail) (init : ℚ × ℚ) :
    (details.foldl (fun acc h => (h.amount, acc.2 + h.fee)) init).2 =
      init.2 + (details.map (fun h => h.fee)).sum := by
  induction details generalizing init with
  | nil => simp
  | cons h t ih =>
      rw [List.foldl_cons, ih]
      simp [add_assoc]

lemma totals_foldl_fst (details : List HopDetail) (init : ℚ × ℚ)
    (hne : details ≠ []) :
    (details.foldl (fun acc h => (h.amount, acc.2 + h.fee)) init).1 =
      (details.getLast hne).amount := by
  induction details generalizing init with
  | nil => exact absurd rfl hne
  | cons h t ih =>
      cases t with
      | nil => simp [List.foldl_cons, List.getLast]
      | cons h' t' =>
          rw [List.foldl_cons]
          rw [ih (h.amount, init.2 + h.fee) (by simp)]
          congr 1

lemma shortestPath_none_iff (records : List TransferRecord) (s t : String)
    (hs : s ∈ (buildTransactionGraph records).nodes) :
    shortestPath (buildTransactionGraph records) s t = none ↔
      ¬ reaches (successors (buildTransactionGraph records)) s t := by
  constructor
  · intro h hre
    obtain ⟨m, hm, hrm⟩ := (reaches_iff_bounded (successors (buildTransactionGraph records))
      s (buildTransactionGraph records).nodes hs
      (fun u x hx => successors_mem_nodes (build_wf records) u x hx) t).mp hre
    have hfm := List.findSome?_eq_none_iff.mp h m
      (List.mem_range.mpr (by omega))
    rw [Option.map_eq_none'] at hfm
    obtain ⟨w, hw, hhead⟩ := hrm
    have := List.find?_eq_none.mp hfm w hw
    simp only [decide_eq_true_eq] at this
    exact this hhead
  · intro h
    cases hsp : shortestPath (buildTransactionGraph records) s t with
    | none => rfl
    | some p =>
        exfalso
        obtain ⟨n, _, hfn⟩ := List.exists_of_findSome?_eq_some hsp
        rw [Option.map_eq_some'] at hfn
        obtain ⟨w, hw, _⟩ := hfn
        have hmem := List.mem_of_find?_eq_some hw
        have hpw := List.find?_some hw
        simp only [decide_eq_true_eq] at hpw
        exact h ⟨n, w, hmem, hpw⟩

/-- C5: `wallet_shortest_path` answers the source-not-found message exactly
when the source is not a graph node, the target-not-found message exactly
when the source is present but the target is not, and the no-path message
exactly when both are present and the target is unreachable from the
source — three mutually distinct outcomes that are never conflated. -/
theorem C5_distinct_outcomes (records : List TransferRecord) (s t : String) :
    (walletShortestPath records s t = ShortestPathOutcome.sourceNotFound s ↔
      s ∉ (buildTransactionGraph records).nodes) ∧
    (walletShortestPath records s t = ShortestPathOutcome.targetNotFound t ↔
      (s ∈ (buildTransactionGraph records).nodes ∧
        t ∉ (buildTransactionGraph records).nodes)) ∧
    (walletShortestPath records s t = ShortestPathOutcome.noPath s t ↔
      (s ∈ (buildTransactionGraph records).nodes ∧
        t ∈ (buildTransactionGraph records).nodes ∧
        ¬ reaches (successors (buildTransactionGraph records)) s t)) := by
  by_cases hs : s ∉ (buildTransactionGraph records).nodes
  · have hrun : walletShortestPath records s t = ShortestPathOutcome.sourceNotFound s := by
      simp only [walletShortestPath, if_pos hs]
    rw [hrun]
    exact ⟨iff_of_true rfl hs,
      iff_of_false (by simp) (fun hc => hs hc.1),
      iff_of_false (by simp) (fun hc => hs hc.1)⟩
  · have hs' : s ∈ (buildTransactionGraph records).nodes := not_not.mp hs
    by_cases ht : t ∉ (buildTransactionGraph records).nodes
    · have hrun : walletShortestPath records s t = ShortestPathOutcome.targetNotFound t := by
        simp only [walletShortestPath, if_neg hs, if_pos ht]
      rw [hrun]
      exact ⟨iff_of_false (by simp) (fun hc => hc hs'),
        iff_of_true rfl ⟨hs', ht⟩,
        iff_of_false (by simp) (fun hc => ht hc.2.1)⟩
    · have ht' : t ∈ (buildTransactionGraph records).nodes := not_not.mp ht
      cases hsp : shortestPath (buildTransactionGraph records) s t with
      | none =>
          have hrun : walletShortestPath records s t = ShortestPathOutcome.noPath s t := by
            simp only [walletShortestPath, if_neg hs, if_neg ht, hsp]
          rw [hrun]
          exact ⟨iff_of_false (by simp) (fun hc => hc hs'),
            iff_of_false (by simp) (fun hc => hc.2 ht'),
            iff_of_true rfl ⟨hs', ht', (shortestPath_none_iff records s t hs').mp hsp⟩⟩
      | some p =>
          have hrun : walletShortestPath records s t = ShortestPathOutcome.found
              ⟨s, t, p.length, p, (hopDetails (buildTransactionGraph records) p).length,
                ((hopDetails (buildTransactionGraph records) p).foldl
                  (fun acc h => (h.amount, acc.2 + h.fee)) ((0 : ℚ), (0 : ℚ))).2,
                ((hopDetails (buildTransactionGraph records) p).foldl
                  (fun acc h => (h.amount, acc.2 + h.fee)) ((0 : ℚ), (0 : ℚ))).1,
                hopDetails (buildTransactionGraph records) p⟩ := by
            simp only [walletShortestPath, if_neg hs, if_neg ht, hsp]
          rw [hrun]
          have hre : reaches (successors (buildTransactionGraph records)) s t := by
            by_contra hcon
            rw [← shortestPath_none_iff records s t hs'] at hcon
            rw [hsp] at hcon
            exact Option.noConfusion hcon
          exact ⟨iff_of_false (by simp) (fun hc => hc hs'),
            iff_of_false (by simp) (fun hc => hc.2 ht'),
            iff_of_false (by simp) (fun hc => hc.2.2 hre)⟩

/-- C5 witness: on the one-edge graph A→B the query from B to A answers the
no-path message, and the instantiated characterization holds. -/
theorem C5_witness :
    walletShortestPath [⟨"t1", "ts", "A", "B", "BTC", 5, 1, "n"⟩] "B" "A" =
      ShortestPathOutcome.noPath "B" "A" ∧
    ((walletShortestPath [⟨"t1", "ts", "A", "B", "BTC", 5, 1, "n"⟩] "B" "A" =
      ShortestPathOutcome.sourceNotFound "B" ↔
      "B" ∉ (buildTransactionGraph [⟨"t1", "ts", "A", "B", "BTC", 5, 1, "n"⟩]).nodes) ∧
    (walletShortestPath [⟨"t1", "ts", "A", "B", "BTC", 5, 1, "n"⟩] "B" "A" =
      ShortestPathOutcome.targetNotFound "A" ↔
      ("B" ∈ (buildTransactionGraph [⟨"t1", "ts", "A", "B", "BTC", 5, 1, "n"⟩]).nodes ∧
        "A" ∉ (buildTransactionGraph [⟨"t1", "ts", "A", "B", "BTC", 5, 1, "n"⟩]).nodes)) ∧
    (walletShortestPath [⟨"t1", "ts", "A", "B", "BTC", 5, 1, "n"⟩] "B" "A" =
      ShortestPathOutcome.noPath "B" "A" ↔
      ("B" ∈ (buildTransactionGraph [⟨"t1", "ts", "A", "B", "BTC", 5, 1, "n"⟩]).nodes ∧
        "A" ∈ (buildTransactionGraph [⟨"t1", "ts", "A", "B", "BTC", 5, 1, "n"⟩]).nodes ∧
        ¬ reaches (successors (buildTransactionGraph
          [⟨"t1", "ts", "A", "B", "BTC", 5, 1, "n"⟩])) "B" "A"))) :=
  ⟨by decide, C5_distinct_outcomes [⟨"t1", "ts", "A", "B", "BTC", 5, 1, "n"⟩] "B" "A"⟩

/-- The two-edge scenario graph of C6: A→B (BTC, 0.05, fee 0.0001) and
B→C (BTC, 0.048, fee 0.0001). -/
def c6rows : List TransferRecord :=
  [⟨"tx1", "ts1", "A", "B", "BTC", 0.05, 0.0001, "n1"⟩,
   ⟨"tx2", "ts2", "B", "C", "BTC", 0.048, 0.0001, "n2"⟩]

/-- C6: every successful `wallet_shortest_path` result reports as
`total_fees` the sum of the fees of its hops and as `final_amount` the
literal amount of the last hop (amounts are not compounded across hops);
in particular on the scenario graph the query from A to C finds the 2-hop
path A→B→C with total fee 0.0002. -/
theorem C6_fee_sum_final_amount :
    (∀ (records : List TransferRecord) (s t : String) (res : PathResult),
      walletShortestPath records s t = ShortestPathOutcome.found res →
      res.total_fees = (res.path_details.map (fun h => h.fee)).sum ∧
      ∀ hne : res.path_details ≠ [],
        res.final_amount = (res.path_details.getLast hne).amount) ∧
    (∃ res : PathResult,
      walletShortestPath c6rows "A" "C" = ShortestPathOutcome.found res ∧
      res.path_nodes = ["A", "B", "C"] ∧
      res.total_hops = 2 ∧
      res.path_details.map (fun h => (h.from_addr, h.to_addr)) = [("A", "B"), ("B", "C")] ∧
      res.total_fees = 0.0002) := by
  constructor
  · intro records s t res h
    by_cases hs : s ∉ (buildTransactionGraph records).nodes
    · simp only [walletShortestPath, if_pos hs] at h
      exact ShortestPathOutcome.noConfusion h
    · by_cases ht : t ∉ (buildTransactionGraph records).nodes
      · simp only [walletShortestPath, if_neg hs, if_pos ht] at h
        exact ShortestPathOutcome.noConfusion h
      · cases hsp : shortestPath (buildTransactionGraph records) s t with
        | none =>
            simp only [walletShortestPath, if_neg hs, if_neg ht, hsp] at h
            exact ShortestPathOutcome.noConfusion h
        | some p =>
            simp only [walletShortestPath, if_neg hs, if_neg ht, hsp,
              ShortestPathOutcome.found.injEq] at h
            subst h
            constructor
            · rw [totals_foldl_snd]
              simp
            · intro hne
              exact totals_foldl_fst _ _ hne
  · have hsp : shortestPath (buildTransactionGraph c6rows) "A" "C" =
        some ["A", "B", "C"] := by decide
    have hsA : ¬ ("A" ∉ (buildTransactionGraph c6rows).nodes) := by decide
    have hsC : ¬ ("C" ∉ (buildTransactionGraph c6rows).nodes) := by decide
    have hdet : hopDetails (buildTransactionGraph c6rows) ["A", "B", "C"] =
        [⟨1, "A", "B", "BTC", 0.05, 0.0001, "tx1", "ts1", "n1"⟩,
         ⟨2, "B", "C", "BTC", 0.048, 0.0001, "tx2", "ts2", "n2"⟩] := by
      rfl
    have hrun : walletShortestPath c6rows "A" "C" = ShortestPathOutcome.found
        ⟨"A", "C", (["A", "B", "C"] : List String).length, ["A", "B", "C"],
          (hopDetails (buildTransactionGraph c6rows) ["A", "B", "C"]).length,
          ((hopDetails (buildTransactionGraph c6rows) ["A", "B", "C"]).foldl
            (fun acc h => (h.amount, acc.2 + h.fee)) ((0 : ℚ), (0 : ℚ))).2,
          ((hopDetails (buildTransactionGraph c6rows) ["A", "B", "C"]).foldl
            (fun acc h => (h.amount, acc.2 + h.fee)) ((0 : ℚ), (0 : ℚ))).1,
          hopDetails (buildTransactionGraph c6rows) ["A", "B", "C"]⟩ := by
      simp only [walletShortestPath, if_neg hsA, if_neg hsC, hsp]
    refine ⟨_, hrun, rfl, ?_, ?_, ?_⟩
    · simp only [hdet]
      rfl
    · simp only [hdet]
      rfl
    · simp only [hdet, totals_foldl_snd, List.map_cons, List.map_nil, List.sum_cons,
        List.sum_nil]
      norm_num

/-- The result `wallet_shortest_path` computes on the C6 scenario graph. -/
def c6Result : PathResult :=
  ⟨"A", "C", 3, ["A", "B", "C"],
    (hopDetails (buildTransactionGraph c6rows) ["A", "B", "C"]).length,
    ((hopDetails (buildTransactionGraph c6rows) ["A", "B", "C"]).foldl
      (fun acc h => (h.amount, acc.2 + h.fee)) ((0 : ℚ), (0 : ℚ))).2,
    ((hopDetails (buildTransactionGraph c6rows) ["A", "B", "C"]).foldl
      (fun acc h => (h.amount, acc.2 + h.fee)) ((0 : ℚ), (0 : ℚ))).1,
    hopDetails (buildTransactionGraph c6rows) ["A", "B", "C"]⟩

/-- C6 witness: the general fee/amount law applied to the concrete scenario
result. -/
theorem C6_witness :
    walletShortestPath c6rows "A" "C" = ShortestPathOutcome.found c6Result ∧
    (c6Result.total_fees = (c6Result.path_details.map (fun h => h.fee)).sum ∧
      ∀ hne : c6Result.path_details ≠ [],
        c6Result.final_amount = (c6Result.path_details.getLast hne).amount) := by
  have hsp : shortestPath (buildTransactionGraph c6rows) "A" "C" =
      some ["A", "B", "C"] := by decide
  have hsA : ¬ ("A" ∉ (buildTransactionGraph c6rows).nodes) := by decide
  have hsC : ¬ ("C" ∉ (buildTransactionGraph c6rows).nodes) := by decide
  have hrun : walletShortestPath c6rows "A" "C" = ShortestPathOutcome.found c6Result := by
    simp only [walletShortestPath, c6Result, if_neg hsA, if_neg hsC, hsp]
    rfl
  exact ⟨hrun, C6_fee_sum_final_amount.1 c6rows "A" "C" c6Result hrun⟩
